import Mathlib

/-!
# Verification of the wasix-sendmail RFC 5322 header/address parsing core

This file gives a shallow embedding, in Lean 4, of the two components of the
wasix-sendmail parsing core:

* the chumsky-based RFC 5322 `addr-spec` grammar engine of
  `src/parser/email_parser.rs` (embedded as deterministic, PEG-style
  recursive-descent functions over `List Char`, with explicit fuel for the
  loops that chumsky expresses with `repeated()` and `recursive()`), and
* the header unfolder `parse_email_headers` of `src/parser.rs`.

Chumsky's combinators have PEG semantics: `choice` is ordered and commits to
the first alternative that succeeds, `repeated()` is greedy and never gives
back an iteration, and a failing parser rewinds the input for the enclosing
alternative.  The embedding reproduces exactly that: every parser is a
function `List Char → Option (output × rest)`, ordered choice is a `match`
on the first alternative, and greedy repetition is a fueled loop that stops
at the first failing iteration.  Fuel only bounds loop iterations and
comment nesting; every loop iteration consumes at least one character, so
`2 * length + 4` fuel is always enough.
-/

namespace Sendmail

/-! ## Character classes (from the chumsky `filter`/`one_of` sets) -/

/-- WSP = SP / HTAB (`wsp()` in the source); codes 32 and 9. -/
def isWsp (c : Char) : Bool := decide (c.toNat = 32 ∨ c.toNat = 9)

/-- atext: ASCII alphanumerics (A–Z, a–z, 0–9) plus the RFC 5322 specials
listed in `atext()`, by code point:
`!`=33 `#`=35 `$`=36 `%`=37 `&`=38 `'`=39 `*`=42 `+`=43 `-`=45 `/`=47
`=`=61 `?`=63 `^`=94 `_`=95 `` ` ``=96 `{`=123 `|`=124 `}`=125 `~`=126. -/
def isAtext (c : Char) : Bool :=
  decide ((65 ≤ c.toNat ∧ c.toNat ≤ 90) ∨ (97 ≤ c.toNat ∧ c.toNat ≤ 122) ∨
    (48 ≤ c.toNat ∧ c.toNat ≤ 57) ∨
    c.toNat = 33 ∨ c.toNat = 35 ∨ c.toNat = 36 ∨ c.toNat = 37 ∨ c.toNat = 38 ∨
    c.toNat = 39 ∨ c.toNat = 42 ∨ c.toNat = 43 ∨ c.toNat = 45 ∨ c.toNat = 47 ∨
    c.toNat = 61 ∨ c.toNat = 63 ∨ c.toNat = 94 ∨ c.toNat = 95 ∨ c.toNat = 96 ∨
    c.toNat = 123 ∨ c.toNat = 124 ∨ c.toNat = 125 ∨ c.toNat = 126)

/-- qtext: printable ASCII except `"` (34) and `\` (92). -/
def isQtext (c : Char) : Bool :=
  decide (c.toNat ≠ 34 ∧ c.toNat ≠ 92 ∧ 33 ≤ c.toNat ∧ c.toNat ≤ 126)

/-- The character set of `quoted_pair()`: VCHAR (33–126) plus SP and HTAB. -/
def isQpChar (c : Char) : Bool :=
  decide (c.toNat = 32 ∨ c.toNat = 9 ∨ (33 ≤ c.toNat ∧ c.toNat ≤ 126))

/-- dtext: %d33-90 / %d94-126 (`dtext()` in the source). -/
def isDtextChar (c : Char) : Bool :=
  decide ((33 ≤ c.toNat ∧ c.toNat ≤ 90) ∨ (94 ≤ c.toNat ∧ c.toNat ≤ 126))

/-- ctext: printable ASCII except `(` (40), `)` (41) and `\` (92). -/
def isCtext (c : Char) : Bool :=
  decide (33 ≤ c.toNat ∧ c.toNat ≤ 126 ∧ c.toNat ≠ 40 ∧ c.toNat ≠ 41 ∧
    c.toNat ≠ 92)

/-! ## Folding white space -/

/-- Greedy run of WSP characters: the pair (consumed, rest). -/
def wspRun (s : List Char) : List Char × List Char :=
  (s.takeWhile isWsp, s.dropWhile isWsp)

/-- Greedy repetition of (CRLF 1*WSP), each unit normalized to a single
space (the `.map(|_| " ".to_string())` in `fws_as_space`).  A CRLF not
followed by WSP fails the unit, which rewinds. -/
def crlfUnits : Nat → List Char → List Char × List Char
  | 0, s => ([], s)
  | fuel+1, s =>
    match s with
    | a :: b :: r =>
      if a = '\r' ∧ b = '\n' then
        let w := wspRun r
        if w.1.isEmpty then ([], s)
        else
          let p := crlfUnits fuel w.2
          (' ' :: p.1, p.2)
      else ([], s)
    | _ => ([], s)

/-- First branch of `fws_as_space`: `*WSP (CRLF 1*WSP -> " ")* *WSP`,
preserving the WSP runs.  All three components may be empty, so this
branch always succeeds. -/
def fwsLoose (fuel : Nat) (s : List Char) : List Char × List Char :=
  let a := wspRun s
  let b := crlfUnits fuel a.2
  let c := wspRun b.2
  (a.1 ++ b.1 ++ c.1, c.2)

/-- obs-FWS shaped branch: `1*WSP (CRLF 1*WSP -> " ")*`, preserving WSP. -/
def fwsObs (fuel : Nat) (s : List Char) : Option (List Char × List Char) :=
  let a := wspRun s
  if a.1.isEmpty then none
  else
    let b := crlfUnits fuel a.2
    some (a.1 ++ b.1, b.2)

/-- Plain `1*WSP` branch. -/
def fwsWsp (s : List Char) : Option (List Char × List Char) :=
  let a := wspRun s
  if a.1.isEmpty then none else some (a.1, a.2)

/-- `fws_as_space()`: ordered choice of the three branches.  The first
branch never fails, so the choice always returns it. -/
def fwsAsSpace (fuel : Nat) (s : List Char) : Option (List Char × List Char) :=
  (some (fwsLoose fuel s)).orElse fun _ =>
    (fwsObs fuel s).orElse fun _ => fwsWsp s

/-- First branch of `fws()`: `*WSP (CRLF 1*WSP)* 1*WSP` with greedy
repetitions (so the final `1*WSP` only succeeds if a WSP survives the
greedy prefix, which never happens). -/
def fwsStd (fuel : Nat) (s : List Char) : Option (List Char) :=
  let a := wspRun s
  let b := crlfUnits fuel a.2
  let c := wspRun b.2
  if c.1.isEmpty then none else some c.2

/-- `fws()`: strict folding white space; returns the rest of the input. -/
def fws (fuel : Nat) (s : List Char) : Option (List Char) :=
  (fwsStd fuel s).orElse fun _ =>
    ((fwsObs fuel s).map (·.2)).orElse fun _ => (fwsWsp s).map (·.2)

/-- `fws().or_not()`. -/
def optFws (fuel : Nat) (s : List Char) : List Char := (fws fuel s).getD s

/-! ## Comments

`comment()` is `"(" *([FWS] ccontent) [FWS] ")"` with `ccontent = ctext /
quoted-pair / comment` and, inside a comment, FWS simplified to `1*WSP`
(the `simple_fws` of the source).  `commentFn fuel true s` parses a whole
comment; `commentFn fuel false s` parses `*([FWS] ccontent) [FWS] ")"`.
The fuel bounds the combined iteration/nesting depth. -/
def commentFn : Nat → Bool → List Char → Option (List Char)
  | 0, _, _ => none
  | fuel+1, true, s =>
    match s with
    | c :: r => if c = '(' then commentFn fuel false r else none
    | [] => none
  | fuel+1, false, s =>
    let r := (wspRun s).2
    match r with
    | c :: rest =>
      if isCtext c then commentFn fuel false rest
      else if c = '\\' then
        match rest with
        | d :: rest1 =>
          if isQpChar d then commentFn fuel false rest1
          else none
        | [] => none
      else if c = '(' then
        match commentFn fuel true r with
        | some r1 => commentFn fuel false r1
        | none => none
      else if c = ')' then some rest
      else none
    | [] => none

/-- `comment()`. -/
def comment (fuel : Nat) (s : List Char) : Option (List Char) :=
  commentFn fuel true s

/-! ## CFWS -/

/-- One `[FWS] comment [FWS]` unit of the first CFWS branch. -/
def cfwsUnit (fuel : Nat) (s : List Char) : Option (List Char) :=
  match comment fuel (optFws fuel s) with
  | some r1 => some (optFws fuel r1)
  | none => none

/-- Greedy repetition of further `[FWS] comment [FWS]` units. -/
def cfwsLoop : Nat → List Char → List Char
  | 0, s => s
  | fuel+1, s =>
    match cfwsUnit fuel s with
    | some r => cfwsLoop fuel r
    | none => s

/-- `cfws()`: `(1*([FWS] comment [FWS])) [FWS]` or plain FWS. -/
def cfws (fuel : Nat) (s : List Char) : Option (List Char) :=
  (match cfwsUnit fuel s with
   | some r => some (optFws fuel (cfwsLoop fuel r))
   | none => none).orElse fun _ => fws fuel s

/-- `cfws().or_not()`. -/
def optCfws (fuel : Nat) (s : List Char) : List Char := (cfws fuel s).getD s

/-! ## dot-atom and atom -/

/-- Greedy repetition of `"." 1*atext` after the first atext run. -/
def dotAtomTextLoop : Nat → List Char → List Char × List Char
  | 0, s => ([], s)
  | fuel+1, s =>
    match s with
    | c :: r =>
      if c = '.' then
        let t := r.takeWhile isAtext
        if t.isEmpty then ([], s)
        else
          let p := dotAtomTextLoop fuel (r.dropWhile isAtext)
          ('.' :: (t ++ p.1), p.2)
      else ([], s)
    | [] => ([], s)

/-- `dot_atom_text_parser()`: `1*atext *("." 1*atext)`. -/
def dotAtomText (fuel : Nat) (s : List Char) : Option (List Char × List Char) :=
  let t := s.takeWhile isAtext
  if t.isEmpty then none
  else
    let p := dotAtomTextLoop fuel (s.dropWhile isAtext)
    some (t ++ p.1, p.2)

/-- `dot_atom_parser()`: `[CFWS] dot-atom-text [CFWS]`. -/
def dotAtom (fuel : Nat) (s : List Char) : Option (List Char × List Char) :=
  match dotAtomText fuel (optCfws fuel s) with
  | some p => some (p.1, optCfws fuel p.2)
  | none => none

/-- `atom()`: `[CFWS] 1*atext [CFWS]`. -/
def atomP (fuel : Nat) (s : List Char) : Option (List Char × List Char) :=
  let s1 := optCfws fuel s
  let t := s1.takeWhile isAtext
  if t.isEmpty then none
  else some (t, optCfws fuel (s1.dropWhile isAtext))

/-! ## quoted-string -/

/-- `quoted_pair()`: `"\" (VCHAR / WSP)`, backslash kept in the output. -/
def quotedPairP (s : List Char) : Option (List Char × List Char) :=
  match s with
  | a :: c :: r => if a = '\\' ∧ isQpChar c then some (['\\', c], r) else none
  | _ => none

/-- `qcontent()`: quoted-pair tried first, then a single qtext char. -/
def qcontentP (s : List Char) : Option (List Char × List Char) :=
  match quotedPairP s with
  | some p => some p
  | none =>
    match s with
    | c :: r => if isQtext c then some ([c], r) else none
    | [] => none

/-- One unit of the quoted-string body: `fws_as_space` then `qcontent`,
or bare `qcontent` (the second alternative of the source's `choice`). -/
def qsUnit (fuel : Nat) (s : List Char) : Option (List Char × List Char) :=
  match fwsAsSpace fuel s with
  | some wr =>
    match qcontentP wr.2 with
    | some qr => some (wr.1 ++ qr.1, qr.2)
    | none => qcontentP s
  | none => qcontentP s

/-- Greedy repetition of quoted-string body units, concatenated. -/
def qsUnitsLoop : Nat → List Char → List Char × List Char
  | 0, s => ([], s)
  | fuel+1, s =>
    match qsUnit fuel s with
    | some ur =>
      let p := qsUnitsLoop fuel ur.2
      (ur.1 ++ p.1, p.2)
    | none => ([], s)

/-- `quoted_string_parser()`: `[CFWS] DQUOTE *([FWS] qcontent) [FWS] DQUOTE
[CFWS]`, with FWS preserved (CRLF collapsed to one space) and the quotes
kept in the output. -/
def quotedString (fuel : Nat) (s : List Char) : Option (List Char × List Char) :=
  match optCfws fuel s with
  | c :: r =>
    if c = '"' then
      let p := qsUnitsLoop fuel r
      let tw := (fwsAsSpace fuel p.2).getD ([], p.2)
      match tw.2 with
      | d :: r3 => if d = '"' then some ('"' :: (p.1 ++ tw.1 ++ ['"']), optCfws fuel r3) else none
      | [] => none
    else none
  | [] => none

/-! ## domain-literal -/

/-- `dtext()`: quoted-pair first (obs-dtext), then a single dtext char. -/
def dtextP (s : List Char) : Option (List Char × List Char) :=
  match quotedPairP s with
  | some p => some p
  | none =>
    match s with
    | c :: r => if isDtextChar c then some ([c], r) else none
    | [] => none

/-- Greedy repetition of further dtext items after the first one. -/
def dtextRunLoop : Nat → List Char → List Char × List Char
  | 0, s => ([], s)
  | fuel+1, s =>
    match dtextP s with
    | some dr =>
      let p := dtextRunLoop fuel dr.2
      (dr.1 ++ p.1, p.2)
    | none => ([], s)

/-- Greedy repetition of `[FWS] 1*dtext` units of the domain-literal body. -/
def dlUnitsLoop : Nat → List Char → List Char × List Char
  | 0, s => ([], s)
  | fuel+1, s =>
    let wr := (fwsAsSpace fuel s).getD ([], s)
    match dtextP wr.2 with
    | some dr =>
      let ds := dtextRunLoop fuel dr.2
      let p := dlUnitsLoop fuel ds.2
      (wr.1 ++ dr.1 ++ ds.1 ++ p.1, p.2)
    | none => ([], s)

/-- `domain_literal_parser()`: `[CFWS] "[" *([FWS] 1*dtext) [FWS] "]"
[CFWS]`.  Note the trailing `[FWS]` before `]` is dropped from the output
(the source's map keeps only the unit contents). -/
def domainLiteral (fuel : Nat) (s : List Char) : Option (List Char × List Char) :=
  match optCfws fuel s with
  | c :: r =>
    if c = '[' then
      let p := dlUnitsLoop fuel r
      match optFws fuel p.2 with
      | d :: r3 => if d = ']' then some ('[' :: (p.1 ++ [']']), optCfws fuel r3) else none
      | [] => none
    else none
  | [] => none

/-! ## Obsolete syntax -/

/-- `obs_word()`: `atom / quoted-string`. -/
def wordP (fuel : Nat) (s : List Char) : Option (List Char × List Char) :=
  match atomP fuel s with
  | some p => some p
  | none => quotedString fuel s

/-- Greedy repetition of `"." word` in `obs_local_part_parser()`. -/
def wordDotLoop : Nat → List Char → List Char × List Char
  | 0, s => ([], s)
  | fuel+1, s =>
    match s with
    | c :: r =>
      if c = '.' then
        match wordP fuel r with
        | some wr =>
          let p := wordDotLoop fuel wr.2
          ('.' :: (wr.1 ++ p.1), p.2)
        | none => ([], s)
      else ([], s)
    | [] => ([], s)

/-- `obs_local_part_parser()`: `word *("." word)`, joined with dots. -/
def obsLocalPart (fuel : Nat) (s : List Char) : Option (List Char × List Char) :=
  match wordP fuel s with
  | some wr =>
    let p := wordDotLoop fuel wr.2
    some (wr.1 ++ p.1, p.2)
  | none => none

/-- Greedy repetition of `"." atom` in `obs_domain_parser()`. -/
def atomDotLoop : Nat → List Char → List Char × List Char
  | 0, s => ([], s)
  | fuel+1, s =>
    match s with
    | c :: r =>
      if c = '.' then
        match atomP fuel r with
        | some ar =>
          let p := atomDotLoop fuel ar.2
          ('.' :: (ar.1 ++ p.1), p.2)
        | none => ([], s)
      else ([], s)
    | [] => ([], s)

/-- `obs_domain_parser()`: `atom *("." atom)`, joined with dots. -/
def obsDomain (fuel : Nat) (s : List Char) : Option (List Char × List Char) :=
  match atomP fuel s with
  | some ar =>
    let p := atomDotLoop fuel ar.2
    some (ar.1 ++ p.1, p.2)
  | none => none

/-! ## local-part, domain, addr-spec -/

/-- `local_part_parser()`: ordered choice dot-atom, obs-local-part,
quoted-string. -/
def localPart (fuel : Nat) (s : List Char) : Option (List Char × List Char) :=
  match dotAtom fuel s with
  | some p => some p
  | none =>
    match obsLocalPart fuel s with
    | some p => some p
    | none => quotedString fuel s

/-- `domain_parser()`: ordered choice domain-literal, obs-domain,
dot-atom. -/
def domainPart (fuel : Nat) (s : List Char) : Option (List Char × List Char) :=
  match domainLiteral fuel s with
  | some p => some p
  | none =>
    match obsDomain fuel s with
    | some p => some p
    | none => dotAtom fuel s

/-- `addr_spec_parser_internal()`: `[CFWS] local-part "@" domain [CFWS]`,
output `local ++ "@" ++ domain`. -/
def addrSpecInternal (fuel : Nat) (s : List Char) : Option (List Char × List Char) :=
  match localPart fuel (optCfws fuel s) with
  | some lr =>
    match lr.2 with
    | c :: r1 =>
      if c = '@' then
        match domainPart fuel r1 with
        | some dr => some (lr.1 ++ '@' :: dr.1, optCfws fuel dr.2)
        | none => none
      else none
    | [] => none
  | none => none

/-- `addr_spec_parser()`: the internal parser followed by `end()`. -/
def addrSpecEnd (fuel : Nat) (s : List Char) : Option (List Char) :=
  match addrSpecInternal fuel s with
  | some pr =>
    match pr.2 with
    | [] => some pr.1
    | _ :: _ => none
  | none => none

/-- Fuel that is always sufficient: every loop iteration consumes at least
one character and comment nesting costs two fuel per `(`. -/
def parseFuel (s : List Char) : Nat := 2 * s.length + 4

/-- `parse_email_address` of `src/parser/email_parser.rs`: run the
addr-spec parser over the whole input, returning the normalized address. -/
def parse_email_address (s : String) : Option String :=
  (addrSpecEnd (parseFuel s.toList) s.toList).map fun l => String.mk l

/-! ## The header unfolder (`parse_email_headers` of `src/parser.rs`) -/

/-- Rust `char::is_whitespace` (the `White_Space` property). -/
def isRustWhitespace (c : Char) : Bool :=
  decide ((9 ≤ c.toNat ∧ c.toNat ≤ 13) ∨ c.toNat = 32 ∨ c.toNat = 133 ∨
    c.toNat = 160 ∨ c.toNat = 5760 ∨ (8192 ≤ c.toNat ∧ c.toNat ≤ 8202) ∨
    c.toNat = 8232 ∨ c.toNat = 8233 ∨ c.toNat = 8239 ∨ c.toNat = 8287 ∨
    c.toNat = 12288)

/-- Rust `str::trim` on a character list. -/
def trimList (l : List Char) : List Char :=
  ((l.dropWhile isRustWhitespace).reverse.dropWhile isRustWhitespace).reverse

/-- Strip one trailing `\r` (the `\r\n` line ending case of `str::lines`). -/
def stripCr (l : List Char) : List Char :=
  match l.getLast? with
  | some c => if c = '\r' then l.dropLast else l
  | none => l

/-- Worker for `rustLines`; `cur` holds the current line reversed. -/
def rustLinesAux : List Char → List Char → List (List Char)
  | [], cur => if cur.isEmpty then [] else [cur.reverse]
  | c :: rest, cur =>
    if c = '\n' then stripCr cur.reverse :: rustLinesAux rest []
    else rustLinesAux rest (c :: cur)

/-- Rust `str::lines()`: split at `\n`, dropping one `\r` before each `\n`;
a final segment without a line ending is yielded as-is (a bare trailing
`\r` is kept), and a final line ending produces no extra empty line. -/
def rustLines (s : List Char) : List (List Char) := rustLinesAux s []

/-- Split a line at its first `:`; `none` when the line has no colon. -/
def splitColon : List Char → Option (List Char × List Char)
  | [] => none
  | c :: r =>
    if c = ':' then some ([], r)
    else (splitColon r).map fun p => (c :: p.1, p.2)

/-- A parsed email header field with unfolded value (`HeaderField`). -/
structure HeaderField where
  name : String
  value : String
deriving DecidableEq, Repr

/-- `line.starts_with(' ') || line.starts_with('\t')`. -/
def startsWsp : List Char → Bool
  | c :: _ => decide (c = ' ' ∨ c = '\t')
  | [] => false

/-- The line-by-line loop of `parse_email_headers`: `acc` is the flushed
fields, `cur` the currently open field.  Stops at the first blank line. -/
def headerLoop : List (List Char) → List HeaderField → Option HeaderField → List HeaderField
  | [], acc, cur => acc ++ cur.toList
  | line :: rest, acc, cur =>
    if (trimList line).isEmpty then acc ++ cur.toList
    else if startsWsp line then
      match cur with
      | some f =>
        headerLoop rest acc (some ⟨f.name, f.value ++ " " ++ String.mk (trimList line)⟩)
      | none => headerLoop rest acc none
    else
      match splitColon line with
      | some p =>
        headerLoop rest (acc ++ cur.toList)
          (some ⟨String.mk (trimList p.1), String.mk (trimList p.2)⟩)
      | none => headerLoop rest (acc ++ cur.toList) none

/-- `parse_email_headers` of `src/parser.rs`. -/
def parse_email_headers (email : String) : List HeaderField :=
  headerLoop (rustLines email.toList) [] none

/-! ## Predicates and normal forms used by the statements and proofs -/

/-- The head of `s` (if any) cannot begin an FWS: not WSP and not CR. -/
def fwsFree (s : List Char) : Prop :=
  ∀ c, s.head? = some c → isWsp c = false ∧ c ≠ '\r'

/-- The head of `s` (if any) cannot begin a CFWS: not WSP, not CR, not `(`. -/
def cfwsFree (s : List Char) : Prop :=
  ∀ c, s.head? = some c → isWsp c = false ∧ c ≠ '\r' ∧ c ≠ '('

/-- `n` opening parentheses followed by `n` closing ones: a comment body
nested to depth `n` with no other content. -/
def balancedParens (n : Nat) : List Char :=
  List.replicate n '(' ++ List.replicate n ')'

/-- The input form of a run of folding white space: a leading WSP run and
then CRLF-headed WSP runs. -/
def crlfFws : List (List Char) → List Char
  | [] => []
  | u :: us => '\r' :: '\n' :: (u ++ crlfFws us)

/-- One token of normalized quoted-string or domain-literal content: a WSP
character, a single content character, or a quoted pair. -/
inductive Tok where
  | wspT (c : Char)
  | txtT (c : Char)
  | pairT (c : Char)
deriving DecidableEq, Repr

/-- The characters a token stands for. -/
def Tok.chars : Tok → List Char
  | .wspT c => [c]
  | .txtT c => [c]
  | .pairT c => ['\\', c]

/-- Flatten a token list to its characters. -/
def tflat : List Tok → List Char
  | [] => []
  | t :: ts => t.chars ++ tflat ts

/-- Well-formedness of a quoted-string content token. -/
def QOk : Tok → Prop
  | .wspT c => isWsp c = true
  | .txtT c => isQtext c = true
  | .pairT c => isQpChar c = true

/-- Well-formedness of a domain-literal content token. -/
def DOk : Tok → Prop
  | .wspT c => isWsp c = true
  | .txtT c => isDtextChar c = true
  | .pairT c => isQpChar c = true

/-- Whether a token is a WSP token. -/
def Tok.isWspT : Tok → Bool
  | .wspT _ => true
  | _ => false

/-- The longest all-WSP suffix of a token list removed. -/
def stripWspSuffix : List Tok → List Tok
  | [] => []
  | t :: ts =>
    let s := stripWspSuffix ts
    if s.isEmpty && t.isWspT then [] else t :: s

/-- The longest all-WSP suffix of a token list. -/
def wspSuffix : List Tok → List Tok
  | [] => []
  | t :: ts =>
    let s := stripWspSuffix ts
    if s.isEmpty && t.isWspT then t :: ts else wspSuffix ts

/-- Dot-joined parts: the tail parts of a dot-atom-text, each preceded by a
dot. -/
def dotTail : List (List Char) → List Char
  | [] => []
  | q :: ps => '.' :: (q ++ dotTail ps)

/-- Dot-joined parts: `p₁.p₂.….pₖ`. -/
def dotFlat : List (List Char) → List Char
  | [] => []
  | p :: ps => p ++ dotTail ps

/-- Well-formed dot-atom-text parts: at least one, each a nonempty atext
run. -/
def PartsOk (parts : List (List Char)) : Prop :=
  parts ≠ [] ∧ ∀ p ∈ parts, p ≠ [] ∧ ∀ c ∈ p, isAtext c = true

/-- A normalized quoted string: the body tokens between the quotes. -/
def quotFlat (ts : List Tok) : List Char :=
  '"' :: (tflat ts ++ ['"'])

/-- One word of a normalized obs-local-part tail. -/
inductive WordNF where
  | atomW (run : List Char)
  | quotedW (ts : List Tok)
deriving Repr

/-- The characters of a normalized word. -/
def WordNF.chars : WordNF → List Char
  | .atomW run => run
  | .quotedW ts => quotFlat ts

/-- Well-formedness of a normalized word. -/
def WordNF.Ok : WordNF → Prop
  | .atomW run => run ≠ [] ∧ ∀ c ∈ run, isAtext c = true
  | .quotedW ts => ∀ t ∈ ts, QOk t

/-- The normal form of a local part produced by the engine: a
dot-atom-text, or a quoted first word followed by dot-prefixed words. -/
inductive LocalNF where
  | dotAtomL (parts : List (List Char))
  | obsL (first : List Tok) (tail : List WordNF)
deriving Repr

/-- The dot-prefixed words of a normalized obs-local-part tail. -/
def wordTailFlat : List WordNF → List Char
  | [] => []
  | w :: ws => '.' :: (w.chars ++ wordTailFlat ws)

/-- The characters of a normalized local part. -/
def LocalNF.chars : LocalNF → List Char
  | .dotAtomL parts => dotFlat parts
  | .obsL first tail => quotFlat first ++ wordTailFlat tail

/-- Well-formedness of a normalized local part. -/
def LocalNF.Ok : LocalNF → Prop
  | .dotAtomL parts => PartsOk parts
  | .obsL first tail => (∀ t ∈ first, QOk t) ∧ ∀ w ∈ tail, w.Ok

/-- The normal form of a domain produced by the engine: a domain literal
or a dot-atom-text (the obs-domain output has the same shape). -/
inductive DomNF where
  | litD (ts : List Tok)
  | dotAtomD (parts : List (List Char))
deriving Repr

/-- The characters of a normalized domain. -/
def DomNF.chars : DomNF → List Char
  | .litD ts => '[' :: (tflat ts ++ [']'])
  | .dotAtomD parts => dotFlat parts

/-- Well-formedness of a normalized domain: a literal body never ends in a
WSP token (the parser drops trailing FWS before `]`). -/
def DomNF.Ok : DomNF → Prop
  | .litD ts => (∀ t ∈ ts, DOk t) ∧ ∀ t, ts.getLast? = some t → t.isWspT = false
  | .dotAtomD parts => PartsOk parts

/-- Modelled from the spec: the Email Address value type of §4.3.  The
Rust type is `email_address::EmailAddress`, an external crate whose
parser (`EmailAddress::from_str`) is not part of this repository; the
spec states that the only way to obtain an instance is a successful parse
by the §4.2 grammar engine, so the model carries exactly that invariant:
the held string is an output of `parse_email_address`. -/
structure EmailAddress where
  addr : String
  validated : ∃ input, parse_email_address input = some addr

/-! ## Helper lemmas: runs, folding white space, comments, CFWS -/

theorem takeWhile_append_of {α : Type} (p : α → Bool) (w rest : List α)
    (hw : ∀ c ∈ w, p c = true)
    (hr : ∀ c, rest.head? = some c → p c = false) :
    (w ++ rest).takeWhile p = w ∧ (w ++ rest).dropWhile p = rest := by
  induction w with
  | nil =>
    cases rest with
    | nil => exact ⟨rfl, rfl⟩
    | cons c t =>
      have := hr c rfl
      simp [List.takeWhile_cons, List.dropWhile_cons, this]
  | cons a w ih =>
    have ha : p a = true := hw a (by simp)
    have := ih (fun c hc => hw c (by simp [hc]))
    simp [List.takeWhile_cons, List.dropWhile_cons, ha, this.1, this.2]

theorem mem_takeWhile_pred {α : Type} (p : α → Bool) :
    ∀ (l : List α) (c : α), c ∈ l.takeWhile p → p c = true := by
  intro l
  induction l with
  | nil => intro c hc; cases hc
  | cons a t ih =>
    intro c hc
    by_cases ha : p a = true
    · rw [List.takeWhile_cons, if_pos ha] at hc
      rcases List.mem_cons.mp hc with rfl | hmem
      · exact ha
      · exact ih c hmem
    · rw [List.takeWhile_cons, if_neg ha] at hc
      cases hc

theorem wspRun_append (w rest : List Char)
    (hw : ∀ c ∈ w, isWsp c = true)
    (hr : ∀ c, rest.head? = some c → isWsp c = false) :
    wspRun (w ++ rest) = (w, rest) := by
  have := takeWhile_append_of isWsp w rest hw hr
  simp [wspRun, this.1, this.2]

theorem crlfUnits_nil (fuel : Nat) (s : List Char)
    (h : s.head? ≠ some '\r') : crlfUnits fuel s = ([], s) := by
  cases fuel with
  | zero => rfl
  | succ f =>
    unfold crlfUnits
    split
    · rename_i a b r
      rw [if_neg]
      rintro ⟨rfl, -⟩
      exact h rfl
    · rfl

theorem fwsLoose_append (fuel : Nat) (w rest : List Char)
    (hw : ∀ c ∈ w, isWsp c = true) (hr : fwsFree rest) :
    fwsLoose fuel (w ++ rest) = (w, rest) := by
  have hwr : wspRun (w ++ rest) = (w, rest) :=
    wspRun_append w rest hw (fun c hc => (hr c hc).1)
  have hcr : crlfUnits fuel rest = ([], rest) := by
    refine crlfUnits_nil fuel rest ?_
    intro hhead
    exact (hr '\r' hhead).2 rfl
  have hwr2 : wspRun rest = ([], rest) := by
    have := takeWhile_append_of isWsp [] rest (by intro c hc; cases hc)
      (fun c hc => (hr c hc).1)
    simpa [wspRun] using this
  simp [fwsLoose, hwr, hcr, hwr2]

theorem fwsAsSpace_eq (fuel : Nat) (s : List Char) :
    fwsAsSpace fuel s = some (fwsLoose fuel s) := rfl

theorem fws_none (fuel : Nat) (s : List Char) (h : fwsFree s) :
    fws fuel s = none := by
  have hwr : wspRun s = ([], s) := by
    have := takeWhile_append_of isWsp [] s (by intro c hc; cases hc)
      (fun c hc => (h c hc).1)
    simpa [wspRun] using this
  have hcr : crlfUnits fuel s = ([], s) := by
    refine crlfUnits_nil fuel s ?_
    intro hhead
    exact (h '\r' hhead).2 rfl
  simp [fws, fwsStd, fwsObs, fwsWsp, hwr, hcr, Option.orElse]

theorem optFws_id (fuel : Nat) (s : List Char) (h : fwsFree s) :
    optFws fuel s = s := by
  simp [optFws, fws_none fuel s h]

theorem comment_none (fuel : Nat) (s : List Char)
    (h : s.head? ≠ some '(') : comment fuel s = none := by
  cases fuel with
  | zero => rfl
  | succ f =>
    unfold comment commentFn
    split
    · rename_i c r
      rw [if_neg]
      rintro rfl
      exact h rfl
    · rfl

theorem cfws_none (fuel : Nat) (s : List Char) (h : cfwsFree s) :
    cfws fuel s = none := by
  have hf : fwsFree s := fun c hc => ⟨(h c hc).1, (h c hc).2.1⟩
  have hunit : cfwsUnit fuel s = none := by
    have hofw : optFws fuel s = s := optFws_id fuel s hf
    have hcom : comment fuel s = none := by
      refine comment_none fuel s ?_
      intro hhead
      exact (h '(' hhead).2.2 rfl
    simp [cfwsUnit, hofw, hcom]
  simp [cfws, hunit, Option.orElse, fws_none fuel s hf]

theorem optCfws_id (fuel : Nat) (s : List Char) (h : cfwsFree s) :
    optCfws fuel s = s := by
  simp [optCfws, cfws_none fuel s h]

/-! ## Helper lemmas: character classes and tokens -/

theorem head_dropWhile_not {α : Type} (p : α → Bool) :
    ∀ (l : List α) (x : α), (l.dropWhile p).head? = some x → p x = false := by
  intro l
  induction l with
  | nil => intro x hx; cases hx
  | cons a t ih =>
    intro x hx
    by_cases ha : p a = true
    · rw [List.dropWhile_cons, if_pos ha] at hx
      exact ih x hx
    · rw [List.dropWhile_cons, if_neg ha] at hx
      cases hx
      simpa using ha

theorem qtext_facts {c : Char} (h : isQtext c = true) :
    isWsp c = false ∧ c ≠ '\r' ∧ c ≠ '\\' ∧ c ≠ '"' := by
  simp only [isQtext, decide_eq_true_eq] at h
  refine ⟨by simp only [isWsp, decide_eq_false_iff_not]; omega, ?_, ?_, ?_⟩ <;>
    (rintro rfl; revert h; decide)

theorem atext_facts {c : Char} (h : isAtext c = true) :
    isWsp c = false ∧ c ≠ '\r' ∧ c ≠ '(' ∧ c ≠ '.' ∧ c ≠ '@' ∧ c ≠ '[' ∧
      c ≠ '"' ∧ c ≠ '\\' := by
  simp only [isAtext, decide_eq_true_eq] at h
  refine ⟨by simp only [isWsp, decide_eq_false_iff_not]; omega, ?_, ?_, ?_, ?_, ?_, ?_, ?_⟩ <;>
    (rintro rfl; revert h; decide)

theorem dtext_facts {c : Char} (h : isDtextChar c = true) :
    isWsp c = false ∧ c ≠ '\r' ∧ c ≠ '\\' ∧ c ≠ ']' := by
  simp only [isDtextChar, decide_eq_true_eq] at h
  refine ⟨by simp only [isWsp, decide_eq_false_iff_not]; omega, ?_, ?_, ?_⟩ <;>
    (rintro rfl; revert h; decide)

theorem wsp_facts {c : Char} (h : isWsp c = true) :
    isQtext c = false ∧ isDtextChar c = false ∧ isAtext c = false ∧
      c ≠ '\\' ∧ c ≠ '\r' ∧ c ≠ '"' ∧ c ≠ ']' ∧ c ≠ '.' := by
  simp only [isWsp, decide_eq_true_eq] at h
  refine ⟨by simp only [isQtext, decide_eq_false_iff_not]; omega,
    by simp only [isDtextChar, decide_eq_false_iff_not]; omega,
    by simp only [isAtext, decide_eq_false_iff_not]; omega, ?_, ?_, ?_, ?_, ?_⟩ <;>
    (rintro rfl; revert h; decide)

theorem tflat_append (a b : List Tok) : tflat (a ++ b) = tflat a ++ tflat b := by
  induction a with
  | nil => rfl
  | cons t ts ih =>
    show t.chars ++ tflat (ts ++ b) = (t.chars ++ tflat ts) ++ tflat b
    rw [ih, List.append_assoc]

theorem tflat_cons (t : Tok) (ts : List Tok) :
    tflat (t :: ts) = t.chars ++ tflat ts := rfl

theorem length_le_tflat (ts : List Tok) : ts.length ≤ (tflat ts).length := by
  induction ts with
  | nil => simp [tflat]
  | cons t ts ih =>
    rw [tflat_cons, List.length_append, List.length_cons]
    have : 1 ≤ t.chars.length := by cases t <;> simp [Tok.chars]
    omega

theorem wspT_shape {t : Tok} (hw : t.isWspT = true) : ∃ c, t = Tok.wspT c := by
  cases t with
  | wspT c => exact ⟨c, rfl⟩
  | txtT c => cases hw
  | pairT c => cases hw

theorem tflat_wsp_chars {ts : List Tok} (hw : ∀ t ∈ ts, t.isWspT = true)
    (hok : ∀ t ∈ ts, QOk t ∨ DOk t) :
    ∀ c ∈ tflat ts, isWsp c = true := by
  induction ts with
  | nil => intro x hx; cases hx
  | cons u ts ih =>
    intro x hx
    rw [tflat_cons] at hx
    rcases List.mem_append.mp hx with hx | hx
    · have hu := hw u (by simp)
      cases u with
      | wspT d =>
        have hxd : x = d := by simpa [Tok.chars] using hx
        subst hxd
        rcases hok (Tok.wspT x) (by simp) with h | h <;> exact h
      | txtT d => cases hu
      | pairT d => cases hu
    · exact ih (fun t ht => hw t (by simp [ht])) (fun t ht => hok t (by simp [ht])) x hx

theorem strip_append_suffix (ts : List Tok) :
    stripWspSuffix ts ++ wspSuffix ts = ts := by
  induction ts with
  | nil => rfl
  | cons t ts ih =>
    by_cases h : (stripWspSuffix ts).isEmpty && t.isWspT
    · have h1 : stripWspSuffix ts = [] := by
        cases he : stripWspSuffix ts with
        | nil => rfl
        | cons a l => rw [he] at h; simp at h
      simp only [stripWspSuffix, wspSuffix, h, if_pos]
      simp
    · simp only [stripWspSuffix, wspSuffix, h, if_neg, Bool.not_eq_true]
      simp only [List.cons_append, ih]

theorem strip_nil_all_wsp :
    ∀ ts : List Tok, stripWspSuffix ts = [] → ∀ t ∈ ts, t.isWspT = true := by
  intro ts
  induction ts with
  | nil => intro _ t ht; cases ht
  | cons a l ih =>
    intro h t ht
    by_cases hc : (stripWspSuffix l).isEmpty && a.isWspT
    · rcases List.mem_cons.mp ht with rfl | ht
      · exact (Bool.and_eq_true_iff.mp hc).2
      · refine ih ?_ t ht
        have := (Bool.and_eq_true_iff.mp hc).1
        simpa [List.isEmpty_iff] using this
    · rw [stripWspSuffix, if_neg hc] at h
      cases h

theorem wspSuffix_all_wsp : ∀ ts : List Tok, ∀ t ∈ wspSuffix ts, t.isWspT = true := by
  intro ts
  induction ts with
  | nil => intro t ht; cases ht
  | cons a l ih =>
    intro t ht
    by_cases hc : (stripWspSuffix l).isEmpty && a.isWspT
    · rw [wspSuffix, if_pos hc] at ht
      rcases List.mem_cons.mp ht with rfl | ht
      · exact (Bool.and_eq_true_iff.mp hc).2
      · refine strip_nil_all_wsp l ?_ t ht
        have := (Bool.and_eq_true_iff.mp hc).1
        simpa [List.isEmpty_iff] using this
    · rw [wspSuffix, if_neg hc] at ht
      exact ih t ht

theorem mem_wspSuffix {ts : List Tok} {t : Tok} (h : t ∈ wspSuffix ts) : t ∈ ts := by
  have h2 : t ∈ stripWspSuffix ts ++ wspSuffix ts := List.mem_append.mpr (Or.inr h)
  rw [strip_append_suffix ts] at h2
  exact h2

theorem mem_stripWspSuffix {ts : List Tok} {t : Tok} (h : t ∈ stripWspSuffix ts) :
    t ∈ ts := by
  have h2 : t ∈ stripWspSuffix ts ++ wspSuffix ts := List.mem_append.mpr (Or.inl h)
  rw [strip_append_suffix ts] at h2
  exact h2

theorem strip_all_wsp {ts : List Tok} (h : ∀ t ∈ ts, t.isWspT = true) :
    stripWspSuffix ts = [] ∧ wspSuffix ts = ts := by
  induction ts with
  | nil => exact ⟨rfl, rfl⟩
  | cons a l ih =>
    have hl := ih (fun t ht => h t (by simp [ht]))
    have hc : (stripWspSuffix l).isEmpty && a.isWspT := by
      rw [hl.1]
      simp [h a (by simp)]
    exact ⟨by rw [stripWspSuffix, if_pos hc], by rw [wspSuffix, if_pos hc]⟩

theorem strip_wsp_prefix_cons :
    ∀ (pre : List Tok) (tok : Tok) (ts : List Tok),
      (∀ t ∈ pre, t.isWspT = true) → tok.isWspT = false →
      stripWspSuffix (pre ++ tok :: ts) = pre ++ tok :: stripWspSuffix ts ∧
      wspSuffix (pre ++ tok :: ts) = wspSuffix ts := by
  intro pre
  induction pre with
  | nil =>
    intro tok ts _ htok
    have hc : ¬((stripWspSuffix ts).isEmpty && tok.isWspT) := by
      simp [htok]
    exact ⟨by rw [List.nil_append, stripWspSuffix, if_neg hc]; rfl,
      by rw [List.nil_append, wspSuffix, if_neg hc]⟩
  | cons a pre ih =>
    intro tok ts hpre htok
    have h := ih tok ts (fun t ht => hpre t (by simp [ht])) htok
    have hne : stripWspSuffix (pre ++ tok :: ts) ≠ [] := by
      rw [h.1]
      intro hcontra
      cases pre <;> cases hcontra
    have hc : ¬((stripWspSuffix (pre ++ tok :: ts)).isEmpty && a.isWspT) := by
      simp [List.isEmpty_iff, hne]
    constructor
    · rw [List.cons_append, stripWspSuffix, if_neg hc]
      simp only [h.1, List.cons_append]
    · rw [List.cons_append, wspSuffix, if_neg hc]
      exact h.2

/-! ## Helper lemmas: token-level parsers -/

theorem quotedPairP_pair (c : Char) (rest : List Char) (h : isQpChar c = true) :
    quotedPairP ('\\' :: c :: rest) = some (['\\', c], rest) := by
  simp [quotedPairP, h]

theorem quotedPairP_none (c : Char) (rest : List Char) (h : c ≠ '\\') :
    quotedPairP (c :: rest) = none := by
  cases rest with
  | nil => rfl
  | cons d r => simp [quotedPairP, h]

theorem qcontentP_tok (t : Tok) (rest : List Char) (hok : QOk t)
    (hw : t.isWspT = false) :
    qcontentP (t.chars ++ rest) = some (t.chars, rest) := by
  cases t with
  | wspT c => cases hw
  | txtT c =>
    have hok' : isQtext c = true := hok
    have hf := qtext_facts hok'
    simp only [Tok.chars, List.cons_append, List.nil_append]
    rw [qcontentP, quotedPairP_none c rest hf.2.2.1]
    simp [hok']
  | pairT c =>
    have hok' : isQpChar c = true := hok
    simp only [Tok.chars, List.cons_append, List.nil_append]
    rw [qcontentP, quotedPairP_pair c rest hok']

theorem qcontentP_none (c : Char) (rest : List Char) (h1 : c ≠ '\\')
    (h2 : isQtext c = false) : qcontentP (c :: rest) = none := by
  rw [qcontentP, quotedPairP_none c rest h1]
  simp [h2]

theorem dtextP_tok (t : Tok) (rest : List Char) (hok : DOk t)
    (hw : t.isWspT = false) :
    dtextP (t.chars ++ rest) = some (t.chars, rest) := by
  cases t with
  | wspT c => cases hw
  | txtT c =>
    have hok' : isDtextChar c = true := hok
    have hf := dtext_facts hok'
    simp only [Tok.chars, List.cons_append, List.nil_append]
    rw [dtextP, quotedPairP_none c rest hf.2.2.1]
    simp [hok']
  | pairT c =>
    have hok' : isQpChar c = true := hok
    simp only [Tok.chars, List.cons_append, List.nil_append]
    rw [dtextP, quotedPairP_pair c rest hok']

theorem dtextP_none (c : Char) (rest : List Char) (h1 : c ≠ '\\')
    (h2 : isDtextChar c = false) : dtextP (c :: rest) = none := by
  rw [dtextP, quotedPairP_none c rest h1]
  simp [h2]

/-- The head of a non-WSP token's characters cannot begin an FWS. -/
theorem tok_head_fwsFree (t : Tok) (X : List Char) (hok : QOk t ∨ DOk t)
    (hw : t.isWspT = false) : fwsFree (t.chars ++ X) := by
  cases t with
  | wspT c => cases hw
  | txtT c =>
    intro x hx
    simp only [Tok.chars, List.cons_append, List.head?_cons, Option.some_inj] at hx
    cases hx
    rcases hok with h | h
    · have h' : isQtext c = true := h
      exact ⟨(qtext_facts h').1, (qtext_facts h').2.1⟩
    · have h' : isDtextChar c = true := h
      exact ⟨(dtext_facts h').1, (dtext_facts h').2.1⟩
  | pairT c =>
    intro x hx
    simp only [Tok.chars, List.cons_append, List.head?_cons, Option.some_inj] at hx
    subst hx
    exact ⟨by decide, by decide⟩

theorem fwsFree_cons (c : Char) (X : List Char) (h1 : isWsp c = false)
    (h2 : c ≠ '\r') : fwsFree (c :: X) := by
  intro x hx
  cases hx
  exact ⟨h1, h2⟩

theorem cfwsFree_cons (c : Char) (X : List Char) (h1 : isWsp c = false)
    (h2 : c ≠ '\r') (h3 : c ≠ '(') : cfwsFree (c :: X) := by
  intro x hx
  cases hx
  exact ⟨h1, h2, h3⟩

theorem cfwsFree_nil : cfwsFree [] := by
  intro c hc
  cases hc

theorem cfwsFree_fwsFree {s : List Char} (h : cfwsFree s) : fwsFree s :=
  fun c hc => ⟨(h c hc).1, (h c hc).2.1⟩

theorem qcontentP_none_head (s : List Char)
    (h : ∀ c, s.head? = some c → c ≠ '\\' ∧ isQtext c = false) :
    qcontentP s = none := by
  cases s with
  | nil => rfl
  | cons c r => exact qcontentP_none c r (h c rfl).1 (h c rfl).2

theorem dtextP_none_head (s : List Char)
    (h : ∀ c, s.head? = some c → c ≠ '\\' ∧ isDtextChar c = false) :
    dtextP s = none := by
  cases s with
  | nil => rfl
  | cons c r => exact dtextP_none c r (h c rfl).1 (h c rfl).2

theorem getLast?_exists_mem {α : Type} :
    ∀ (l : List α), l ≠ [] → ∃ x, l.getLast? = some x ∧ x ∈ l := by
  intro l
  induction l with
  | nil => intro h; exact absurd rfl h
  | cons a t ih =>
    intro _
    cases ht : t with
    | nil => exact ⟨a, rfl, by simp⟩
    | cons b t' =>
      obtain ⟨x, hx1, hx2⟩ := ih (by simp [ht])
      rw [ht] at hx1 hx2
      exact ⟨x, by rw [List.getLast?_cons_cons]; exact hx1, by simp [hx2]⟩

theorem getLast?_append_right {α : Type} (l₁ l₂ : List α) (h : l₂ ≠ []) :
    (l₁ ++ l₂).getLast? = l₂.getLast? := by
  induction l₁ with
  | nil => rfl
  | cons a t ih =>
    cases hl : t ++ l₂ with
    | nil =>
      rcases List.append_eq_nil.mp hl with ⟨-, h2⟩
      exact absurd h2 h
    | cons b u =>
      rw [List.cons_append, hl, List.getLast?_cons_cons, ← hl, ih]

/-! ## Loop step lemmas -/

theorem qsUnitsLoop_succ_some (f : Nat) (s u r : List Char)
    (h : qsUnit f s = some (u, r)) :
    qsUnitsLoop (f+1) s =
      (u ++ (qsUnitsLoop f r).1, (qsUnitsLoop f r).2) := by
  simp only [qsUnitsLoop, h]

theorem qsUnitsLoop_succ_none (f : Nat) (s : List Char)
    (h : qsUnit f s = none) : qsUnitsLoop (f+1) s = ([], s) := by
  simp only [qsUnitsLoop, h]

/-! ## Reflection: re-parsing normalized quoted strings -/

theorem qsUnitsLoop_reflect :
    ∀ (fuel : Nat) (ts : List Tok) (q : List Char),
      (∀ t ∈ ts, QOk t) → ts.length < fuel →
      qsUnitsLoop fuel (tflat ts ++ '"' :: q) =
        (tflat (stripWspSuffix ts), tflat (wspSuffix ts) ++ '"' :: q) := by
  intro fuel
  induction fuel with
  | zero => intro ts q _ h; omega
  | succ f ih =>
    intro ts q hok hlen
    have hts : ts.takeWhile Tok.isWspT ++ ts.dropWhile Tok.isWspT = ts :=
      List.takeWhile_append_dropWhile _ _
    set P := ts.takeWhile Tok.isWspT with hPdef
    have hpre_wsp : ∀ t ∈ P, t.isWspT = true :=
      fun t ht => mem_takeWhile_pred _ ts t ht
    have hpre_mem : ∀ t ∈ P, t ∈ ts := by
      intro t ht
      rw [← hts]
      exact List.mem_append.mpr (Or.inl ht)
    cases hsuf : ts.dropWhile Tok.isWspT with
    | nil =>
      have hts_wsp : ∀ t ∈ ts, t.isWspT = true := by
        intro t ht
        rw [← hts, hsuf, List.append_nil] at ht
        exact hpre_wsp t ht
      have hstrip := strip_all_wsp hts_wsp
      have hflat_wsp : ∀ c ∈ tflat ts, isWsp c = true :=
        tflat_wsp_chars hts_wsp (fun t ht => Or.inl (hok t ht))
      have hfl : fwsLoose f (tflat ts ++ '"' :: q) = (tflat ts, '"' :: q) :=
        fwsLoose_append f _ _ hflat_wsp (fwsFree_cons '"' q (by decide) (by decide))
      have hqcq : qcontentP ('"' :: q) = none :=
        qcontentP_none '"' q (by decide) (by decide)
      have hqcs : qcontentP (tflat ts ++ '"' :: q) = none := by
        refine qcontentP_none_head _ ?_
        intro x hx
        cases hflat : tflat ts with
        | nil =>
          rw [hflat, List.nil_append, List.head?_cons, Option.some_inj] at hx
          rw [← hx]
          exact ⟨by decide, by decide⟩
        | cons a l =>
          rw [hflat, List.cons_append, List.head?_cons, Option.some_inj] at hx
          have ha : isWsp a = true := hflat_wsp a (by rw [hflat]; simp)
          have hf2 := wsp_facts ha
          rw [← hx]
          exact ⟨hf2.2.2.2.1, hf2.1⟩
      have hunit : qsUnit f (tflat ts ++ '"' :: q) = none := by
        rw [qsUnit, fwsAsSpace_eq, hfl]
        simp only [hqcq, hqcs]
      rw [qsUnitsLoop_succ_none f _ hunit, hstrip.1, hstrip.2]
      rfl
    | cons tok suf' =>
      have htok_nw : tok.isWspT = false :=
        head_dropWhile_not _ ts tok (by rw [hsuf]; rfl)
      have hts' : ts = P ++ tok :: suf' := by
        conv => lhs; rw [← hts, hsuf]
      have htok_mem : tok ∈ ts := by
        rw [hts']
        simp
      have hsuf_mem : ∀ t ∈ suf', t ∈ ts := by
        intro t ht
        rw [hts']
        simp [ht]
      have hinput : tflat ts ++ '"' :: q =
          tflat P ++ (tok.chars ++ (tflat suf' ++ '"' :: q)) := by
        rw [hts', tflat_append, tflat_cons]
        simp [List.append_assoc]
      have hw_chars : ∀ c ∈ tflat P, isWsp c = true :=
        tflat_wsp_chars hpre_wsp (fun t ht => Or.inl (hok t (hpre_mem t ht)))
      have hfl : fwsLoose f (tflat P ++ (tok.chars ++ (tflat suf' ++ '"' :: q))) =
          (tflat P, tok.chars ++ (tflat suf' ++ '"' :: q)) :=
        fwsLoose_append f _ _ hw_chars
          (tok_head_fwsFree tok _ (Or.inl (hok tok htok_mem)) htok_nw)
      have hqc : qcontentP (tok.chars ++ (tflat suf' ++ '"' :: q)) =
          some (tok.chars, tflat suf' ++ '"' :: q) :=
        qcontentP_tok tok _ (hok tok htok_mem) htok_nw
      have hunit : qsUnit f (tflat ts ++ '"' :: q) =
          some (tflat P ++ tok.chars, tflat suf' ++ '"' :: q) := by
        rw [hinput, qsUnit, fwsAsSpace_eq, hfl]
        simp only [hqc]
      have hlen_eq : ts.length = P.length + (suf'.length + 1) := by
        conv => lhs; rw [hts']
        simp [List.length_append]
      have hlen' : suf'.length < f := by omega
      have hrec := ih suf' q (fun t ht => hok t (hsuf_mem t ht)) hlen'
      have hsplit := strip_wsp_prefix_cons P tok suf' hpre_wsp htok_nw
      rw [qsUnitsLoop_succ_some f _ _ _ hunit, hrec]
      conv => rhs; rw [hts']
      rw [hsplit.1, hsplit.2, tflat_append, tflat_cons]
      simp [List.append_assoc]

theorem quotedString_reflect (fuel : Nat) (ts : List Tok) (rest : List Char)
    (hok : ∀ t ∈ ts, QOk t) (hrest : cfwsFree rest) (hfuel : ts.length < fuel) :
    quotedString fuel ('"' :: (tflat ts ++ '"' :: rest)) =
      some (quotFlat ts, rest) := by
  have hcf : cfwsFree ('"' :: (tflat ts ++ '"' :: rest)) :=
    cfwsFree_cons _ _ (by decide) (by decide) (by decide)
  have hsuffix_wsp : ∀ c ∈ tflat (wspSuffix ts), isWsp c = true :=
    tflat_wsp_chars (wspSuffix_all_wsp ts)
      (fun t ht => Or.inl (hok t (mem_wspSuffix ht)))
  have hfl : fwsLoose fuel (tflat (wspSuffix ts) ++ '"' :: rest) =
      (tflat (wspSuffix ts), '"' :: rest) :=
    fwsLoose_append fuel _ _ hsuffix_wsp (fwsFree_cons '"' rest (by decide) (by decide))
  have hjoin : tflat (stripWspSuffix ts) ++ tflat (wspSuffix ts) = tflat ts := by
    rw [← tflat_append, strip_append_suffix]
  simp only [quotedString, optCfws_id fuel _ hcf,
    qsUnitsLoop_reflect fuel ts rest hok hfuel, fwsAsSpace_eq, hfl,
    Option.getD_some, if_pos, optCfws_id fuel rest hrest, quotFlat]
  congr 2
  rw [hjoin]

/-! ## Reflection: re-parsing normalized domain literals -/

theorem dtextRunLoop_none (fuel : Nat) (s : List Char) (h : dtextP s = none) :
    dtextRunLoop fuel s = ([], s) := by
  cases fuel with
  | zero => rfl
  | succ f => simp only [dtextRunLoop, h]

theorem dtextRunLoop_succ_some (f : Nat) (s d r : List Char)
    (h : dtextP s = some (d, r)) :
    dtextRunLoop (f+1) s =
      (d ++ (dtextRunLoop f r).1, (dtextRunLoop f r).2) := by
  simp only [dtextRunLoop, h]

theorem dtextRunLoop_reflect :
    ∀ (run : List Tok) (fuel : Nat) (rest : List Char),
      (∀ t ∈ run, DOk t ∧ t.isWspT = false) →
      (∀ c, rest.head? = some c → c ≠ '\\' ∧ isDtextChar c = false) →
      run.length ≤ fuel →
      dtextRunLoop fuel (tflat run ++ rest) = (tflat run, rest) := by
  intro run
  induction run with
  | nil =>
    intro fuel rest _ hstop _
    exact dtextRunLoop_none fuel rest (dtextP_none_head rest hstop)
  | cons t run' ih =>
    intro fuel rest hok hstop hfuel
    cases fuel with
    | zero => simp at hfuel
    | succ f =>
      have hd : dtextP (t.chars ++ (tflat run' ++ rest)) =
          some (t.chars, tflat run' ++ rest) :=
        dtextP_tok t _ (hok t (by simp)).1 (hok t (by simp)).2
      have hrec := ih f rest (fun x hx => hok x (by simp [hx])) hstop
        (by simp at hfuel ⊢; omega)
      rw [tflat_cons, List.append_assoc,
        dtextRunLoop_succ_some f _ _ _ hd, hrec]

theorem dlUnitsLoop_succ_some (f : Nat) (s w m d r1 : List Char)
    (hfl : fwsLoose f s = (w, m)) (hd : dtextP m = some (d, r1)) :
    dlUnitsLoop (f+1) s =
      (w ++ d ++ (dtextRunLoop f r1).1 ++
        (dlUnitsLoop f (dtextRunLoop f r1).2).1,
       (dlUnitsLoop f (dtextRunLoop f r1).2).2) := by
  simp only [dlUnitsLoop, fwsAsSpace_eq, Option.getD_some, hfl, hd]

theorem dlUnitsLoop_succ_none (f : Nat) (s w m : List Char)
    (hfl : fwsLoose f s = (w, m)) (hd : dtextP m = none) :
    dlUnitsLoop (f+1) s = ([], s) := by
  simp only [dlUnitsLoop, fwsAsSpace_eq, Option.getD_some, hfl, hd]

theorem dlUnitsLoop_reflect :
    ∀ (fuel : Nat) (ts : List Tok) (q : List Char),
      (∀ t ∈ ts, DOk t) →
      (∀ t, ts.getLast? = some t → t.isWspT = false) →
      ts.length < fuel →
      dlUnitsLoop fuel (tflat ts ++ ']' :: q) = (tflat ts, ']' :: q) := by
  intro fuel
  induction fuel with
  | zero => intro ts q _ _ h; omega
  | succ f ih =>
    intro ts q hok hlast hlen
    have hts : ts.takeWhile Tok.isWspT ++ ts.dropWhile Tok.isWspT = ts :=
      List.takeWhile_append_dropWhile _ _
    set P := ts.takeWhile Tok.isWspT with hPdef
    have hpre_wsp : ∀ t ∈ P, t.isWspT = true :=
      fun t ht => mem_takeWhile_pred _ ts t ht
    cases hsuf : ts.dropWhile Tok.isWspT with
    | nil =>
      have hts_nil : ts = [] := by
        cases hts0 : ts with
        | nil => rfl
        | cons a l =>
          obtain ⟨x, hx1, hx2⟩ := getLast?_exists_mem ts (by rw [hts0]; simp)
          have hxw : x.isWspT = true := by
            have hall : ∀ t ∈ ts, t.isWspT = true := by
              intro t ht
              rw [← hts, hsuf, List.append_nil] at ht
              exact hpre_wsp t ht
            exact hall x hx2
          rw [hlast x hx1] at hxw
          cases hxw
      subst hts_nil
      have hfl : fwsLoose f (']' :: q) = ([], ']' :: q) := by
        have := fwsLoose_append f [] (']' :: q) (by intro c hc; cases hc)
          (fwsFree_cons ']' q (by decide) (by decide))
        simpa using this
      have hd : dtextP (']' :: q) = none :=
        dtextP_none ']' q (by decide) (by decide)
      rw [show tflat [] ++ ']' :: q = ']' :: q from rfl,
        dlUnitsLoop_succ_none f _ _ _ hfl hd]
      rfl
    | cons tok suf' =>
      have htok_nw : tok.isWspT = false :=
        head_dropWhile_not _ ts tok (by rw [hsuf]; rfl)
      have hts' : ts = P ++ tok :: suf' := by
        conv => lhs; rw [← hts, hsuf]
      have htok_mem : tok ∈ ts := by rw [hts']; simp
      have hmem : ∀ t ∈ suf', t ∈ ts := by
        intro t ht
        rw [hts']
        simp [ht]
      have hsplit2 : suf'.takeWhile (fun t => !t.isWspT) ++
          suf'.dropWhile (fun t => !t.isWspT) = suf' :=
        List.takeWhile_append_dropWhile _ _
      set D := suf'.takeWhile (fun t => !t.isWspT) with hDdef
      set S := suf'.dropWhile (fun t => !t.isWspT) with hSdef
      have hD_props : ∀ t ∈ D, DOk t ∧ t.isWspT = false := by
        intro t ht
        have h1 : (fun t : Tok => !t.isWspT) t = true := mem_takeWhile_pred _ suf' t ht
        have h2 : t ∈ suf' := by
          rw [← hsplit2]
          exact List.mem_append.mpr (Or.inl ht)
        refine ⟨hok t (hmem t h2), ?_⟩
        simpa using h1
      have hS_mem : ∀ t ∈ S, t ∈ suf' := by
        intro t ht
        rw [← hsplit2]
        exact List.mem_append.mpr (Or.inr ht)
      have hinput : tflat ts ++ ']' :: q =
          tflat P ++ (tok.chars ++ (tflat D ++ (tflat S ++ ']' :: q))) := by
        rw [hts', tflat_append, tflat_cons]
        conv => lhs; rw [← hsplit2]
        rw [tflat_append]
        simp [List.append_assoc]
      have hw_chars : ∀ c ∈ tflat P, isWsp c = true :=
        tflat_wsp_chars hpre_wsp
          (fun t ht => Or.inr (hok t (by rw [← hts]; exact List.mem_append.mpr (Or.inl ht))))
      have hfl : fwsLoose f (tflat P ++ (tok.chars ++ (tflat D ++ (tflat S ++ ']' :: q)))) =
          (tflat P, tok.chars ++ (tflat D ++ (tflat S ++ ']' :: q))) :=
        fwsLoose_append f _ _ hw_chars
          (tok_head_fwsFree tok _ (Or.inr (hok tok htok_mem)) htok_nw)
      have hd : dtextP (tok.chars ++ (tflat D ++ (tflat S ++ ']' :: q))) =
          some (tok.chars, tflat D ++ (tflat S ++ ']' :: q)) :=
        dtextP_tok tok _ (hok tok htok_mem) htok_nw
      have hstop : ∀ c, (tflat S ++ ']' :: q).head? = some c →
          c ≠ '\\' ∧ isDtextChar c = false := by
        intro c hc
        cases hSs : S with
        | nil =>
          rw [hSs] at hc
          simp only [tflat, List.nil_append, List.head?_cons, Option.some_inj] at hc
          rw [← hc]
          exact ⟨by decide, by decide⟩
        | cons u S' =>
          have hu : u.isWspT = true := by
            have := head_dropWhile_not (fun t : Tok => !t.isWspT) suf' u
              (by rw [← hSdef, hSs]; rfl)
            simpa using this
          obtain ⟨d0, rfl⟩ := wspT_shape hu
          have hdok : DOk (Tok.wspT d0) := hok _ (hmem _ (hS_mem _ (by rw [hSs]; simp)))
          have hdw : isWsp d0 = true := hdok
          rw [hSs] at hc
          simp only [tflat_cons, Tok.chars, List.cons_append, List.append_assoc,
            List.head?_cons, Option.some_inj] at hc
          have hf2 := wsp_facts hdw
          rw [← hc]
          exact ⟨hf2.2.2.2.1, hf2.2.1⟩
      have hlen_eq : ts.length = P.length + (D.length + (S.length + 1)) := by
        conv => lhs; rw [hts']
        conv => lhs; rw [← hsplit2]
        simp [List.length_append]
        omega
      have hdrun : dtextRunLoop f (tflat D ++ (tflat S ++ ']' :: q)) =
          (tflat D, tflat S ++ ']' :: q) :=
        dtextRunLoop_reflect D f _ hD_props hstop (by omega)
      have hrecS : dlUnitsLoop f (tflat S ++ ']' :: q) = (tflat S, ']' :: q) := by
        refine ih S q (fun t ht => hok t (hmem t (hS_mem t ht))) ?_ (by omega)
        intro t ht
        cases hSs : S with
        | nil => rw [hSs] at ht; cases ht
        | cons u S' =>
          have hgl : ts.getLast? = S.getLast? := by
            have h1 : ts = (P ++ tok :: D) ++ S := by
              rw [hts']
              conv => lhs; rw [← hsplit2]
              simp [List.append_assoc]
            rw [h1, getLast?_append_right _ _ (by rw [hSs]; simp)]
          refine hlast t ?_
          rw [hgl, ht]
      rw [hinput, dlUnitsLoop_succ_some f _ _ _ _ _ hfl hd, hdrun, hrecS]
      conv => rhs; rw [hts']
      conv => rhs; rw [← hsplit2]
      rw [tflat_append, tflat_cons, tflat_append]
      simp [List.append_assoc]

theorem domainLiteral_reflect (fuel : Nat) (ts : List Tok) (rest : List Char)
    (hok : ∀ t ∈ ts, DOk t)
    (hlast : ∀ t, ts.getLast? = some t → t.isWspT = false)
    (hrest : cfwsFree rest) (hfuel : ts.length < fuel) :
    domainLiteral fuel ('[' :: (tflat ts ++ ']' :: rest)) =
      some ('[' :: (tflat ts ++ [']']), rest) := by
  have hcf : cfwsFree ('[' :: (tflat ts ++ ']' :: rest)) :=
    cfwsFree_cons _ _ (by decide) (by decide) (by decide)
  have hfw : optFws fuel (']' :: rest) = ']' :: rest :=
    optFws_id fuel _ (fwsFree_cons ']' rest (by decide) (by decide))
  simp only [domainLiteral, optCfws_id fuel _ hcf,
    dlUnitsLoop_reflect fuel ts rest hok hlast hfuel, hfw, if_pos,
    optCfws_id fuel rest hrest]

/-! ## Reflection: re-parsing normalized dot-atoms and obs-domains -/

theorem dotAtomTextLoop_none (fuel : Nat) (s : List Char)
    (h : ∀ c, s.head? = some c → c ≠ '.') :
    dotAtomTextLoop fuel s = ([], s) := by
  cases fuel with
  | zero => rfl
  | succ f =>
    cases s with
    | nil => rfl
    | cons c r =>
      rw [dotAtomTextLoop, if_neg (h c rfl)]

theorem dotTail_head_stop (parts : List (List Char)) (rest : List Char)
    (hrest : ∀ c, rest.head? = some c → isAtext c = false ∧ c ≠ '.') :
    ∀ c, (dotTail parts ++ rest).head? = some c → isAtext c = false := by
  intro c hc
  cases parts with
  | nil => exact (hrest c hc).1
  | cons p ps =>
    simp only [dotTail, List.cons_append, List.head?_cons, Option.some_inj] at hc
    rw [← hc]
    decide

theorem dotAtomTextLoop_reflect :
    ∀ (parts : List (List Char)) (fuel : Nat) (rest : List Char),
      (∀ p ∈ parts, p ≠ [] ∧ ∀ c ∈ p, isAtext c = true) →
      (∀ c, rest.head? = some c → isAtext c = false ∧ c ≠ '.') →
      parts.length ≤ fuel →
      dotAtomTextLoop fuel (dotTail parts ++ rest) = (dotTail parts, rest) := by
  intro parts
  induction parts with
  | nil =>
    intro fuel rest _ hstop _
    exact dotAtomTextLoop_none fuel rest (fun c hc => (hstop c hc).2)
  | cons p parts' ih =>
    intro fuel rest hok hstop hfuel
    cases fuel with
    | zero => simp at hfuel
    | succ f =>
      have hspan := takeWhile_append_of isAtext p (dotTail parts' ++ rest)
        (hok p (by simp)).2 (dotTail_head_stop parts' rest hstop)
      have hne : ¬(p.isEmpty = true) := by
        simp [List.isEmpty_iff, (hok p (by simp)).1]
      have hrec := ih f rest (fun x hx => hok x (by simp [hx])) hstop
        (by simp at hfuel ⊢; omega)
      simp only [dotTail, List.cons_append, List.append_assoc]
      rw [dotAtomTextLoop, if_pos rfl]
      simp only [hspan.1, hspan.2]
      rw [if_neg hne, hrec]

theorem dotAtomText_reflect (fuel : Nat) (parts : List (List Char))
    (rest : List Char) (hok : PartsOk parts)
    (hstop : ∀ c, rest.head? = some c → isAtext c = false ∧ c ≠ '.')
    (hfuel : parts.length ≤ fuel + 1) :
    dotAtomText fuel (dotFlat parts ++ rest) = some (dotFlat parts, rest) := by
  obtain ⟨hne, hparts⟩ := hok
  cases parts with
  | nil => exact absurd rfl hne
  | cons p parts' =>
    have hspan := takeWhile_append_of isAtext p (dotTail parts' ++ rest)
      (hparts p (by simp)).2 (dotTail_head_stop parts' rest hstop)
    have hpe : ¬(p.isEmpty = true) := by
      simp [List.isEmpty_iff, (hparts p (by simp)).1]
    have hrec := dotAtomTextLoop_reflect parts' fuel rest
      (fun x hx => hparts x (by simp [hx])) hstop (by simp at hfuel ⊢; omega)
    simp only [dotFlat, List.append_assoc]
    rw [dotAtomText]
    simp only [hspan.1, hspan.2]
    rw [if_neg hpe, hrec]

theorem cfwsFree_atext_head (run rest : List Char) (hne : run ≠ [])
    (hrun : ∀ c ∈ run, isAtext c = true) : cfwsFree (run ++ rest) := by
  cases run with
  | nil => exact absurd rfl hne
  | cons a l =>
    have hf := atext_facts (hrun a (by simp))
    exact cfwsFree_cons _ _ hf.1 hf.2.1 hf.2.2.1

theorem dotAtom_reflect (fuel : Nat) (parts : List (List Char))
    (rest : List Char) (hok : PartsOk parts) (hcf : cfwsFree rest)
    (hstop : ∀ c, rest.head? = some c → isAtext c = false ∧ c ≠ '.')
    (hfuel : parts.length ≤ fuel + 1) :
    dotAtom fuel (dotFlat parts ++ rest) = some (dotFlat parts, rest) := by
  have hhead : cfwsFree (dotFlat parts ++ rest) := by
    obtain ⟨hne, hparts⟩ := hok
    cases parts with
    | nil => exact absurd rfl hne
    | cons p parts' =>
      simp only [dotFlat, List.append_assoc]
      exact cfwsFree_atext_head p _ (hparts p (by simp)).1 (hparts p (by simp)).2
  rw [dotAtom, optCfws_id fuel _ hhead,
    dotAtomText_reflect fuel parts rest hok hstop hfuel]
  simp only [optCfws_id fuel rest hcf]

theorem atomP_reflect (fuel : Nat) (run rest : List Char) (hne : run ≠ [])
    (hrun : ∀ c ∈ run, isAtext c = true) (hcf : cfwsFree rest)
    (hstop : ∀ c, rest.head? = some c → isAtext c = false) :
    atomP fuel (run ++ rest) = some (run, rest) := by
  have hspan := takeWhile_append_of isAtext run rest hrun hstop
  have hpe : ¬(run.isEmpty = true) := by simp [List.isEmpty_iff, hne]
  rw [atomP, optCfws_id fuel _ (cfwsFree_atext_head run rest hne hrun)]
  simp only [hspan.1, hspan.2]
  rw [if_neg hpe, optCfws_id fuel rest hcf]

theorem atomDotLoop_none (fuel : Nat) (s : List Char)
    (h : ∀ c, s.head? = some c → c ≠ '.') :
    atomDotLoop fuel s = ([], s) := by
  cases fuel with
  | zero => rfl
  | succ f =>
    cases s with
    | nil => rfl
    | cons c r => rw [atomDotLoop, if_neg (h c rfl)]

theorem atomDotLoop_reflect :
    ∀ (parts : List (List Char)) (fuel : Nat) (rest : List Char),
      (∀ p ∈ parts, p ≠ [] ∧ ∀ c ∈ p, isAtext c = true) →
      cfwsFree rest →
      (∀ c, rest.head? = some c → isAtext c = false ∧ c ≠ '.') →
      parts.length ≤ fuel →
      atomDotLoop fuel (dotTail parts ++ rest) = (dotTail parts, rest) := by
  intro parts
  induction parts with
  | nil =>
    intro fuel rest _ _ hstop _
    exact atomDotLoop_none fuel rest (fun c hc => (hstop c hc).2)
  | cons p parts' ih =>
    intro fuel rest hok hcf hstop hfuel
    cases fuel with
    | zero => simp at hfuel
    | succ f =>
      have hcf2 : cfwsFree (dotTail parts' ++ rest) := by
        cases parts' with
        | nil => exact hcf
        | cons p2 ps2 =>
          exact cfwsFree_cons _ _ (by decide) (by decide) (by decide)
      have hstop2 : ∀ c, (dotTail parts' ++ rest).head? = some c →
          isAtext c = false :=
        dotTail_head_stop parts' rest hstop
      have hat := atomP_reflect f p (dotTail parts' ++ rest)
        (hok p (by simp)).1 (hok p (by simp)).2 hcf2 hstop2
      have hrec := ih f rest (fun x hx => hok x (by simp [hx])) hcf hstop
        (by simp at hfuel ⊢; omega)
      simp only [dotTail, List.cons_append, List.append_assoc]
      rw [atomDotLoop, if_pos rfl]
      simp only [hat, hrec]

theorem obsDomain_reflect (fuel : Nat) (parts : List (List Char))
    (rest : List Char) (hok : PartsOk parts) (hcf : cfwsFree rest)
    (hstop : ∀ c, rest.head? = some c → isAtext c = false ∧ c ≠ '.')
    (hfuel : parts.length ≤ fuel + 1) :
    obsDomain fuel (dotFlat parts ++ rest) = some (dotFlat parts, rest) := by
  obtain ⟨hne, hparts⟩ := hok
  cases parts with
  | nil => exact absurd rfl hne
  | cons p parts' =>
    have hcf2 : cfwsFree (dotTail parts' ++ rest) := by
      cases parts' with
      | nil => exact hcf
      | cons p2 ps2 => exact cfwsFree_cons _ _ (by decide) (by decide) (by decide)
    have hat := atomP_reflect fuel p (dotTail parts' ++ rest)
      (hparts p (by simp)).1 (hparts p (by simp)).2 hcf2
      (dotTail_head_stop parts' rest hstop)
    have hloop := atomDotLoop_reflect parts' fuel rest
      (fun x hx => hparts x (by simp [hx])) hcf hstop (by simp at hfuel ⊢; omega)
    simp only [dotFlat, List.append_assoc]
    rw [obsDomain]
    simp only [hat, hloop]

/-! ## Reflection: words, local parts, domains, whole addr-specs -/

theorem quotFlat_append (ts : List Tok) (rest : List Char) :
    quotFlat ts ++ rest = '"' :: (tflat ts ++ '"' :: rest) := by
  simp [quotFlat, List.append_assoc]

theorem atomP_none_head (fuel : Nat) (s : List Char) (hcf : cfwsFree s)
    (h : ∀ c, s.head? = some c → isAtext c = false) :
    atomP fuel s = none := by
  rw [atomP, optCfws_id fuel s hcf]
  cases s with
  | nil => rfl
  | cons c r =>
    have hfa : isAtext c = false := h c rfl
    simp [List.takeWhile_cons, hfa]

theorem dotAtom_none_head (fuel : Nat) (s : List Char) (hcf : cfwsFree s)
    (h : ∀ c, s.head? = some c → isAtext c = false) :
    dotAtom fuel s = none := by
  rw [dotAtom, optCfws_id fuel s hcf, dotAtomText]
  cases s with
  | nil => rfl
  | cons c r =>
    have hfa : isAtext c = false := h c rfl
    simp [List.takeWhile_cons, hfa]

theorem domainLiteral_none_head (fuel : Nat) (s : List Char) (hcf : cfwsFree s)
    (h : ∀ c, s.head? = some c → c ≠ '[') :
    domainLiteral fuel s = none := by
  cases s with
  | nil => rw [domainLiteral, optCfws_id fuel _ hcf]
  | cons c r =>
    simp only [domainLiteral, optCfws_id fuel _ hcf]
    rw [if_neg (h c rfl)]

theorem wordP_reflect_quoted (fuel : Nat) (ts : List Tok) (rest : List Char)
    (hok : ∀ t ∈ ts, QOk t) (hrest : cfwsFree rest) (hfuel : ts.length < fuel) :
    wordP fuel (quotFlat ts ++ rest) = some (quotFlat ts, rest) := by
  rw [quotFlat_append]
  have hat : atomP fuel ('"' :: (tflat ts ++ '"' :: rest)) = none :=
    atomP_none_head fuel _ (cfwsFree_cons _ _ (by decide) (by decide) (by decide))
      (by intro c hc; cases hc; decide)
  rw [wordP, hat, quotedString_reflect fuel ts rest hok hrest hfuel]

theorem wordP_reflect_atom (fuel : Nat) (run rest : List Char) (hne : run ≠ [])
    (hrun : ∀ c ∈ run, isAtext c = true) (hcf : cfwsFree rest)
    (hstop : ∀ c, rest.head? = some c → isAtext c = false) :
    wordP fuel (run ++ rest) = some (run, rest) := by
  rw [wordP, atomP_reflect fuel run rest hne hrun hcf hstop]

theorem wordDotLoop_none (fuel : Nat) (s : List Char)
    (h : ∀ c, s.head? = some c → c ≠ '.') :
    wordDotLoop fuel s = ([], s) := by
  cases fuel with
  | zero => rfl
  | succ f =>
    cases s with
    | nil => rfl
    | cons c r => rw [wordDotLoop, if_neg (h c rfl)]

theorem one_le_word_chars {w : WordNF} (hok : w.Ok) : 1 ≤ w.chars.length := by
  cases w with
  | atomW run =>
    have : run ≠ [] := hok.1
    cases run with
    | nil => exact absurd rfl this
    | cons a l => simp [WordNF.chars]
  | quotedW ts => simp [WordNF.chars, quotFlat]

theorem wordDotLoop_reflect :
    ∀ (ws : List WordNF) (fuel : Nat) (rest : List Char),
      (∀ w ∈ ws, WordNF.Ok w) → cfwsFree rest →
      (∀ c, rest.head? = some c → isAtext c = false ∧ c ≠ '.') →
      (wordTailFlat ws).length ≤ fuel →
      wordDotLoop fuel (wordTailFlat ws ++ rest) = (wordTailFlat ws, rest) := by
  intro ws
  induction ws with
  | nil =>
    intro fuel rest _ _ hstop _
    exact wordDotLoop_none fuel rest (fun c hc => (hstop c hc).2)
  | cons w ws' ih =>
    intro fuel rest hok hcf hstop hfuel
    have hwlen : 1 ≤ w.chars.length := one_le_word_chars (hok w (by simp))
    have hlen_eq : (wordTailFlat (w :: ws')).length =
        1 + w.chars.length + (wordTailFlat ws').length := by
      simp [wordTailFlat]
      omega
    cases fuel with
    | zero => omega
    | succ f =>
      have hcf2 : cfwsFree (wordTailFlat ws' ++ rest) := by
        cases ws' with
        | nil => exact hcf
        | cons w2 ws2 => exact cfwsFree_cons _ _ (by decide) (by decide) (by decide)
      have hstop2 : ∀ c, (wordTailFlat ws' ++ rest).head? = some c →
          isAtext c = false := by
        intro c hc
        cases ws' with
        | nil => exact (hstop c hc).1
        | cons w2 ws2 =>
          simp only [wordTailFlat, List.cons_append, List.head?_cons,
            Option.some_inj] at hc
          rw [← hc]
          decide
      have hword : wordP f (w.chars ++ (wordTailFlat ws' ++ rest)) =
          some (w.chars, wordTailFlat ws' ++ rest) := by
        cases w with
        | atomW run =>
          have h1 := (hok (WordNF.atomW run) (by simp)).1
          have h2 := (hok (WordNF.atomW run) (by simp)).2
          exact wordP_reflect_atom f run _ h1 h2 hcf2 hstop2
        | quotedW ts =>
          have hq : ∀ t ∈ ts, QOk t := hok (WordNF.quotedW ts) (by simp)
          have hts_len : ts.length < f := by
            have h1 : ts.length ≤ (tflat ts).length := length_le_tflat ts
            have h2 : (WordNF.quotedW ts).chars.length = (tflat ts).length + 2 := by
              simp [WordNF.chars, quotFlat]
            omega
          exact wordP_reflect_quoted f ts _ hq hcf2 hts_len
      have hrec := ih f rest (fun x hx => hok x (by simp [hx])) hcf hstop
        (by omega)
      simp only [wordTailFlat, List.cons_append, List.append_assoc]
      rw [wordDotLoop, if_pos rfl]
      simp only [hword, hrec]

theorem obsLocalPart_reflect (fuel : Nat) (first : List Tok)
    (tail : List WordNF) (rest : List Char)
    (hfirst : ∀ t ∈ first, QOk t) (htail : ∀ w ∈ tail, WordNF.Ok w)
    (hcf : cfwsFree rest)
    (hstop : ∀ c, rest.head? = some c → isAtext c = false ∧ c ≠ '.')
    (hfuel1 : first.length < fuel)
    (hfuel2 : (wordTailFlat tail).length ≤ fuel) :
    obsLocalPart fuel (quotFlat first ++ (wordTailFlat tail ++ rest)) =
      some (quotFlat first ++ wordTailFlat tail, rest) := by
  have hcf2 : cfwsFree (wordTailFlat tail ++ rest) := by
    cases tail with
    | nil => exact hcf
    | cons w2 ws2 => exact cfwsFree_cons _ _ (by decide) (by decide) (by decide)
  have hword : wordP fuel (quotFlat first ++ (wordTailFlat tail ++ rest)) =
      some (quotFlat first, wordTailFlat tail ++ rest) :=
    wordP_reflect_quoted fuel first _ hfirst hcf2 hfuel1
  have hloop := wordDotLoop_reflect tail fuel rest htail hcf hstop hfuel2
  rw [obsLocalPart]
  simp only [hword, hloop]

theorem dotTail_length (ps : List (List Char)) :
    ps.length ≤ (dotTail ps).length := by
  induction ps with
  | nil => simp [dotTail]
  | cons p ps ih =>
    simp only [dotTail, List.length_cons, List.length_append]
    omega

theorem localNF_head_cfwsFree (L : LocalNF) (X : List Char) (hok : L.Ok) :
    cfwsFree (L.chars ++ X) := by
  cases L with
  | dotAtomL parts =>
    obtain ⟨hne, hparts⟩ := hok
    cases parts with
    | nil => exact absurd rfl hne
    | cons p parts' =>
      simp only [LocalNF.chars, dotFlat, List.append_assoc]
      exact cfwsFree_atext_head p _ (hparts p (by simp)).1 (hparts p (by simp)).2
  | obsL first tail =>
    simp only [LocalNF.chars, quotFlat, List.cons_append]
    exact cfwsFree_cons _ _ (by decide) (by decide) (by decide)

theorem localPart_reflect (fuel : Nat) (L : LocalNF) (rest : List Char)
    (hok : L.Ok) (hcf : cfwsFree rest)
    (hstop : ∀ c, rest.head? = some c → isAtext c = false ∧ c ≠ '.')
    (hfuel : L.chars.length ≤ fuel) :
    localPart fuel (L.chars ++ rest) = some (L.chars, rest) := by
  cases L with
  | dotAtomL parts =>
    have hplen : parts.length ≤ fuel + 1 := by
      obtain ⟨hne, hparts⟩ := hok
      cases parts with
      | nil => exact absurd rfl hne
      | cons p parts' =>
        have h1 := dotTail_length parts'
        have h2 : (LocalNF.dotAtomL (p :: parts')).chars.length =
            p.length + (dotTail parts').length := by
          simp [LocalNF.chars, dotFlat]
        simp only [List.length_cons]
        omega
    simp only [LocalNF.chars] at hfuel ⊢
    rw [localPart, dotAtom_reflect fuel parts rest hok hcf hstop hplen]
  | obsL first tail =>
    have hda : dotAtom fuel ((LocalNF.obsL first tail).chars ++ rest) = none := by
      refine dotAtom_none_head fuel _ (localNF_head_cfwsFree _ _ hok) ?_
      intro c hc
      simp only [LocalNF.chars, quotFlat, List.cons_append, List.head?_cons,
        Option.some_inj] at hc
      rw [← hc]
      decide
    have hlen1 : first.length < fuel := by
      have h1 : first.length ≤ (tflat first).length := length_le_tflat first
      have h2 : (LocalNF.obsL first tail).chars.length =
          (tflat first).length + 2 + (wordTailFlat tail).length := by
        simp [LocalNF.chars, quotFlat]
        omega
      omega
    have hlen2 : (wordTailFlat tail).length ≤ fuel := by
      have h2 : (LocalNF.obsL first tail).chars.length =
          (tflat first).length + 2 + (wordTailFlat tail).length := by
        simp [LocalNF.chars, quotFlat]
        omega
      omega
    have hobs := obsLocalPart_reflect fuel first tail rest hok.1
      (fun w hw => hok.2 w hw) hcf hstop hlen1 hlen2
    simp only [LocalNF.chars, List.append_assoc] at hda ⊢
    simp only [localPart, hda, hobs]

theorem domainPart_reflect (fuel : Nat) (D : DomNF) (rest : List Char)
    (hok : D.Ok) (hcf : cfwsFree rest)
    (hstop : ∀ c, rest.head? = some c → isAtext c = false ∧ c ≠ '.')
    (hfuel : D.chars.length ≤ fuel) :
    domainPart fuel (D.chars ++ rest) = some (D.chars, rest) := by
  cases D with
  | litD ts =>
    have hts_len : ts.length < fuel := by
      have h1 : ts.length ≤ (tflat ts).length := length_le_tflat ts
      have h2 : (DomNF.litD ts).chars.length = (tflat ts).length + 2 := by
        simp [DomNF.chars]
      omega
    have hdl := domainLiteral_reflect fuel ts rest hok.1 hok.2 hcf hts_len
    simp only [DomNF.chars, List.cons_append, List.singleton_append,
      List.nil_append, List.append_assoc] at hdl ⊢
    simp only [domainPart, hdl]
  | dotAtomD parts =>
    have hplen : parts.length ≤ fuel + 1 := by
      obtain ⟨hne, hparts⟩ := hok
      cases parts with
      | nil => exact absurd rfl hne
      | cons p parts' =>
        have h1 := dotTail_length parts'
        have h2 : (DomNF.dotAtomD (p :: parts')).chars.length =
            p.length + (dotTail parts').length := by
          simp [DomNF.chars, dotFlat]
        simp only [List.length_cons]
        omega
    have hdl : domainLiteral fuel ((DomNF.dotAtomD parts).chars ++ rest) = none := by
      refine domainLiteral_none_head fuel _ ?_ ?_
      · obtain ⟨hne, hparts⟩ := hok
        cases parts with
        | nil => exact absurd rfl hne
        | cons p parts' =>
          simp only [DomNF.chars, dotFlat, List.append_assoc]
          exact cfwsFree_atext_head p _ (hparts p (by simp)).1 (hparts p (by simp)).2
      · intro c hc
        obtain ⟨hne, hparts⟩ := hok
        cases parts with
        | nil => exact absurd rfl hne
        | cons p parts' =>
          have hpne := (hparts p (by simp)).1
          cases p with
          | nil => exact absurd rfl hpne
          | cons a l =>
            simp only [DomNF.chars, dotFlat, List.cons_append, List.head?_cons,
              Option.some_inj] at hc
            have := atext_facts ((hparts (a :: l) (by simp)).2 a (by simp))
            rw [← hc]
            exact this.2.2.2.2.2.1
    simp only [DomNF.chars] at hfuel ⊢
    rw [domainPart]
    simp only [DomNF.chars] at hdl
    rw [hdl, obsDomain_reflect fuel parts rest hok hcf hstop hplen]

/-- Re-parsing a normalized addr-spec output yields the same output with
the whole input consumed. -/
theorem addrSpecInternal_reflect (fuel : Nat) (L : LocalNF) (D : DomNF)
    (hokL : L.Ok) (hokD : D.Ok)
    (hfuel : (L.chars ++ '@' :: D.chars).length ≤ fuel) :
    addrSpecInternal fuel (L.chars ++ '@' :: D.chars) =
      some (L.chars ++ '@' :: D.chars, []) := by
  have hcfn : cfwsFree (L.chars ++ '@' :: D.chars) :=
    localNF_head_cfwsFree L _ hokL
  have hlp : localPart fuel (L.chars ++ '@' :: D.chars) =
      some (L.chars, '@' :: D.chars) := by
    refine localPart_reflect fuel L ('@' :: D.chars) hokL
      (cfwsFree_cons _ _ (by decide) (by decide) (by decide)) ?_ ?_
    · intro c hc
      cases hc
      exact ⟨by decide, by decide⟩
    · simp only [List.length_append] at hfuel
      omega
  have hdp : domainPart fuel (D.chars ++ []) = some (D.chars, []) := by
    refine domainPart_reflect fuel D [] hokD cfwsFree_nil ?_ ?_
    · intro c hc; cases hc
    · simp only [List.length_append, List.length_cons] at hfuel
      omega
  rw [List.append_nil] at hdp
  simp only [addrSpecInternal, optCfws_id fuel _ hcfn, hlp, eq_self_iff_true,
    if_true, hdp, optCfws_id fuel [] cfwsFree_nil]

/-! ## Soundness: parser outputs are in normal form -/

theorem crlfUnits_sound :
    ∀ (fuel : Nat) (s : List Char), ∀ c ∈ (crlfUnits fuel s).1, c = ' ' := by
  intro fuel
  induction fuel with
  | zero => intro s c hc; simp [crlfUnits] at hc
  | succ f ih =>
    intro s c hc
    rcases s with _ | ⟨a, _ | ⟨b, r⟩⟩
    · simp [crlfUnits] at hc
    · simp [crlfUnits] at hc
    · rw [crlfUnits] at hc
      by_cases hab : a = '\r' ∧ b = '\n'
      · rw [if_pos hab] at hc
        by_cases hw : (wspRun r).1.isEmpty = true
        · rw [if_pos hw] at hc
          simp at hc
        · rw [if_neg hw] at hc
          simp only [List.mem_cons] at hc
          rcases hc with rfl | hc
          · rfl
          · exact ih (wspRun r).2 c hc
      · rw [if_neg hab] at hc
        simp at hc

theorem fwsLoose_sound (fuel : Nat) (s : List Char) :
    ∀ c ∈ (fwsLoose fuel s).1, isWsp c = true := by
  intro c hc
  simp only [fwsLoose, List.mem_append] at hc
  rcases hc with (hc | hc) | hc
  · exact mem_takeWhile_pred isWsp s c hc
  · rw [crlfUnits_sound fuel _ c hc]
    decide
  · exact mem_takeWhile_pred isWsp _ c hc

/-- A list of WSP characters as WSP tokens. -/
theorem tflat_map_wspT (w : List Char) :
    tflat (w.map Tok.wspT) = w := by
  induction w with
  | nil => rfl
  | cons a l ih => simp [tflat, Tok.chars, ih]

theorem wspToks_ok {w : List Char} (hw : ∀ c ∈ w, isWsp c = true) :
    ∀ t ∈ w.map Tok.wspT, QOk t ∧ DOk t ∧ t.isWspT = true := by
  intro t ht
  simp only [List.mem_map] at ht
  obtain ⟨c, hc, rfl⟩ := ht
  exact ⟨hw c hc, hw c hc, rfl⟩

theorem quotedPairP_sound {s q r : List Char} (h : quotedPairP s = some (q, r)) :
    ∃ c, isQpChar c = true ∧ q = ['\\', c] := by
  rcases s with _ | ⟨a, _ | ⟨b, t⟩⟩
  · cases h
  · cases h
  · rw [quotedPairP] at h
    by_cases hab : a = '\\' ∧ isQpChar b = true
    · rw [if_pos hab] at h
      obtain ⟨h1, h2⟩ := Prod.mk.injEq _ _ _ _ ▸ Option.some.inj h
      exact ⟨b, hab.2, h1.symm⟩
    · rw [if_neg hab] at h
      cases h

theorem qcontentP_sound {s q r : List Char} (h : qcontentP s = some (q, r)) :
    ∃ t : Tok, QOk t ∧ t.isWspT = false ∧ q = t.chars := by
  unfold qcontentP at h
  cases hqp : quotedPairP s with
  | some p =>
    rw [hqp] at h
    obtain ⟨c, hc, hq⟩ := quotedPairP_sound (by rw [hqp, ← h])
    exact ⟨Tok.pairT c, hc, rfl, by rw [hq]; rfl⟩
  | none =>
    rw [hqp] at h
    rcases s with _ | ⟨a, t⟩
    · exact Option.noConfusion h
    · have h3 : (if isQtext a = true then some ([a], t) else none) =
          some (q, r) := h
      by_cases ha : isQtext a = true
      · rw [if_pos ha] at h3
        obtain ⟨h1, h2⟩ := Prod.mk.injEq _ _ _ _ ▸ Option.some.inj h3
        exact ⟨Tok.txtT a, ha, rfl, by rw [← h1]; rfl⟩
      · rw [if_neg ha] at h3
        cases h3

theorem qsUnit_sound {f : Nat} {s u r : List Char}
    (h : qsUnit f s = some (u, r)) :
    ∃ ts : List Tok, (∀ t ∈ ts, QOk t) ∧ u = tflat ts := by
  have h2 : (match qcontentP (fwsLoose f s).2 with
    | some qr => some ((fwsLoose f s).1 ++ qr.1, qr.2)
    | none => qcontentP s) = some (u, r) := h
  clear h
  rename' h2 => h
  cases hqc : qcontentP (fwsLoose f s).2 with
  | some qr =>
    rw [hqc] at h
    obtain ⟨h1, h2⟩ := Prod.mk.injEq _ _ _ _ ▸ Option.some.inj h
    obtain ⟨t, ht1, ht2, ht3⟩ := qcontentP_sound hqc
    refine ⟨(fwsLoose f s).1.map Tok.wspT ++ [t], ?_, ?_⟩
    · intro x hx
      rcases List.mem_append.mp hx with hx | hx
      · exact (wspToks_ok (fwsLoose_sound f s) x hx).1
      · rcases List.mem_singleton.mp hx with rfl
        exact ht1
    · rw [← h1, tflat_append, tflat_map_wspT, ht3]
      simp [tflat]
  | none =>
    rw [hqc] at h
    obtain ⟨t, ht1, ht2, ht3⟩ := qcontentP_sound h
    exact ⟨[t], by simp [ht1], by rw [ht3]; simp [tflat]⟩

theorem qsUnitsLoop_sound :
    ∀ (fuel : Nat) (s : List Char),
      ∃ ts : List Tok, (∀ t ∈ ts, QOk t) ∧ (qsUnitsLoop fuel s).1 = tflat ts := by
  intro fuel
  induction fuel with
  | zero => intro s; exact ⟨[], by simp, rfl⟩
  | succ f ih =>
    intro s
    cases hu : qsUnit f s with
    | none =>
      refine ⟨[], by simp, ?_⟩
      rw [qsUnitsLoop_succ_none f s hu]
      rfl
    | some ur =>
      obtain ⟨u, r⟩ := ur
      obtain ⟨ts1, hts1, hu1⟩ := qsUnit_sound hu
      obtain ⟨ts2, hts2, hu2⟩ := ih r
      refine ⟨ts1 ++ ts2, ?_, ?_⟩
      · intro x hx
        rcases List.mem_append.mp hx with hx | hx
        · exact hts1 x hx
        · exact hts2 x hx
      · rw [qsUnitsLoop_succ_some f s u r hu]
        simp only [tflat_append, hu1, hu2]

theorem quotedString_sound {fuel : Nat} {s out r : List Char}
    (h : quotedString fuel s = some (out, r)) :
    ∃ ts : List Tok, (∀ t ∈ ts, QOk t) ∧ out = quotFlat ts := by
  rw [quotedString] at h
  cases hcf : optCfws fuel s with
  | nil => rw [hcf] at h; cases h
  | cons c rr =>
    rw [hcf] at h
    have h2 : (if c = '"' then
        (match ((fwsAsSpace fuel (qsUnitsLoop fuel rr).2).getD
            ([], (qsUnitsLoop fuel rr).2)).2 with
          | d :: r3 =>
            if d = '"' then
              some ('"' :: ((qsUnitsLoop fuel rr).1 ++
                ((fwsAsSpace fuel (qsUnitsLoop fuel rr).2).getD
                  ([], (qsUnitsLoop fuel rr).2)).1 ++ ['"']), optCfws fuel r3)
            else none
          | [] => none)
      else none) = some (out, r) := h
    clear h
    rename' h2 => h
    by_cases hc : c = '"'
    · rw [if_pos hc] at h
      cases htw : ((fwsAsSpace fuel (qsUnitsLoop fuel rr).2).getD
          ([], (qsUnitsLoop fuel rr).2)).2 with
      | nil => rw [htw] at h; cases h
      | cons d r3 =>
        rw [htw] at h
        by_cases hd : d = '"'
        · subst hd
          obtain ⟨h1, h2⟩ := Prod.mk.injEq _ _ _ _ ▸ Option.some.inj h
          obtain ⟨ts1, hts1, hflat1⟩ := qsUnitsLoop_sound fuel rr
          have htw_wsp : ∀ c2 ∈ ((fwsAsSpace fuel (qsUnitsLoop fuel rr).2).getD
              ([], (qsUnitsLoop fuel rr).2)).1, isWsp c2 = true := by
            rw [fwsAsSpace_eq, Option.getD_some]
            exact fwsLoose_sound fuel _
          refine ⟨ts1 ++ ((fwsAsSpace fuel (qsUnitsLoop fuel rr).2).getD
              ([], (qsUnitsLoop fuel rr).2)).1.map Tok.wspT, ?_, ?_⟩
          · intro x hx
            rcases List.mem_append.mp hx with hx | hx
            · exact hts1 x hx
            · exact (wspToks_ok htw_wsp x hx).1
          · rw [← h1, quotFlat, tflat_append, tflat_map_wspT, hflat1]
        · have h4 : (if d = '"' then
              some ('"' :: ((qsUnitsLoop fuel rr).1 ++
                ((fwsAsSpace fuel (qsUnitsLoop fuel rr).2).getD
                  ([], (qsUnitsLoop fuel rr).2)).1 ++ ['"']), optCfws fuel r3)
            else none) = some (out, r) := h
          rw [if_neg hd] at h4
          cases h4
    · rw [if_neg hc] at h
      cases h

theorem getLast?_mem {α : Type} {l : List α} {x : α}
    (h : l.getLast? = some x) : x ∈ l := by
  cases l with
  | nil => cases h
  | cons a t =>
    obtain ⟨y, hy1, hy2⟩ := getLast?_exists_mem (a :: t) (by simp)
    rw [hy1] at h
    exact (Option.some.inj h) ▸ hy2

theorem dtextP_sound {s q r : List Char} (h : dtextP s = some (q, r)) :
    ∃ t : Tok, DOk t ∧ t.isWspT = false ∧ q = t.chars := by
  unfold dtextP at h
  cases hqp : quotedPairP s with
  | some p =>
    rw [hqp] at h
    obtain ⟨c, hc, hq⟩ := quotedPairP_sound (by rw [hqp, ← h])
    exact ⟨Tok.pairT c, hc, rfl, by rw [hq]; rfl⟩
  | none =>
    rw [hqp] at h
    rcases s with _ | ⟨a, t⟩
    · exact Option.noConfusion h
    · have h3 : (if isDtextChar a = true then some ([a], t) else none) =
          some (q, r) := h
      by_cases ha : isDtextChar a = true
      · rw [if_pos ha] at h3
        obtain ⟨h1, h2⟩ := Prod.mk.injEq _ _ _ _ ▸ Option.some.inj h3
        exact ⟨Tok.txtT a, ha, rfl, by rw [← h1]; rfl⟩
      · rw [if_neg ha] at h3
        cases h3

theorem dtextRunLoop_sound :
    ∀ (fuel : Nat) (s : List Char),
      ∃ ts : List Tok, (∀ t ∈ ts, DOk t ∧ t.isWspT = false) ∧
        (dtextRunLoop fuel s).1 = tflat ts := by
  intro fuel
  induction fuel with
  | zero => intro s; exact ⟨[], by simp, rfl⟩
  | succ f ih =>
    intro s
    cases hd : dtextP s with
    | none =>
      exact ⟨[], by simp, by rw [dtextRunLoop_none (f+1) s hd]; rfl⟩
    | some dr =>
      obtain ⟨d, r1⟩ := dr
      obtain ⟨t0, ht1, ht2, ht3⟩ := dtextP_sound hd
      obtain ⟨ts2, hts2, hflat2⟩ := ih r1
      refine ⟨t0 :: ts2, ?_, ?_⟩
      · intro x hx
        rcases List.mem_cons.mp hx with rfl | hx
        · exact ⟨ht1, ht2⟩
        · exact hts2 x hx
      · rw [dtextRunLoop_succ_some f s d r1 hd, tflat_cons, ht3, hflat2]

theorem dlUnitsLoop_sound :
    ∀ (fuel : Nat) (s : List Char),
      ∃ ts : List Tok, (∀ t ∈ ts, DOk t) ∧
        (∀ t, ts.getLast? = some t → t.isWspT = false) ∧
        (dlUnitsLoop fuel s).1 = tflat ts := by
  intro fuel
  induction fuel with
  | zero => intro s; exact ⟨[], by simp, by simp, rfl⟩
  | succ f ih =>
    intro s
    cases hfl : fwsLoose f s with
    | mk w m =>
      have hw : ∀ c ∈ w, isWsp c = true := by
        have hws := fwsLoose_sound f s
        rw [hfl] at hws
        exact hws
      cases hd : dtextP m with
      | none =>
        exact ⟨[], by simp, by simp,
          by rw [dlUnitsLoop_succ_none f s w m hfl hd]; rfl⟩
      | some dr =>
        obtain ⟨d, r1⟩ := dr
        obtain ⟨t0, ht1, ht2, ht3⟩ := dtextP_sound hd
        obtain ⟨tsd, htsd, hflatd⟩ := dtextRunLoop_sound f r1
        obtain ⟨tsr, htsr, hlastr, hflatr⟩ := ih (dtextRunLoop f r1).2
        refine ⟨w.map Tok.wspT ++ t0 :: (tsd ++ tsr), ?_, ?_, ?_⟩
        · intro x hx
          rcases List.mem_append.mp hx with hx | hx
          · exact (wspToks_ok hw x hx).2.1
          · rcases List.mem_cons.mp hx with rfl | hx
            · exact ht1
            · rcases List.mem_append.mp hx with hx | hx
              · exact (htsd x hx).1
              · exact htsr x hx
        · intro t ht
          rw [getLast?_append_right _ _ (by simp)] at ht
          cases htr : tsr with
          | nil =>
            rw [htr, List.append_nil] at ht
            rcases List.mem_cons.mp (getLast?_mem ht) with rfl | hx
            · exact ht2
            · exact (htsd t hx).2
          | cons b u =>
            rw [htr, ← List.cons_append,
              getLast?_append_right _ _ (by simp)] at ht
            exact hlastr t (by rw [htr]; exact ht)
        · rw [dlUnitsLoop_succ_some f s w m d r1 hfl hd]
          simp only [tflat_append, tflat_cons, tflat_map_wspT]
          rw [← ht3, ← hflatd, ← hflatr]
          simp [List.append_assoc]

theorem domainLiteral_sound {fuel : Nat} {s out r : List Char}
    (h : domainLiteral fuel s = some (out, r)) :
    ∃ ts : List Tok, (∀ t ∈ ts, DOk t) ∧
      (∀ t, ts.getLast? = some t → t.isWspT = false) ∧
      out = '[' :: (tflat ts ++ [']']) := by
  rw [domainLiteral] at h
  cases hcf : optCfws fuel s with
  | nil => rw [hcf] at h; cases h
  | cons c rr =>
    rw [hcf] at h
    have h2 : (if c = '[' then
        (match optFws fuel (dlUnitsLoop fuel rr).2 with
          | d :: r3 =>
            if d = ']' then
              some ('[' :: ((dlUnitsLoop fuel rr).1 ++ [']']), optCfws fuel r3)
            else none
          | [] => none)
      else none) = some (out, r) := h
    clear h
    rename' h2 => h
    by_cases hc : c = '['
    · rw [if_pos hc] at h
      cases htw : optFws fuel (dlUnitsLoop fuel rr).2 with
      | nil => rw [htw] at h; cases h
      | cons d r3 =>
        rw [htw] at h
        by_cases hd : d = ']'
        · subst hd
          obtain ⟨h1, h2⟩ := Prod.mk.injEq _ _ _ _ ▸ Option.some.inj h
          obtain ⟨ts1, hok1, hlast1, hflat1⟩ := dlUnitsLoop_sound fuel rr
          exact ⟨ts1, hok1, hlast1, by rw [← h1, hflat1]⟩
        · have h4 : (if d = ']' then
              some ('[' :: ((dlUnitsLoop fuel rr).1 ++ [']']), optCfws fuel r3)
            else none) = some (out, r) := h
          rw [if_neg hd] at h4
          cases h4
    · rw [if_neg hc] at h
      cases h

theorem dotAtomTextLoop_sound :
    ∀ (fuel : Nat) (s : List Char),
      ∃ ps : List (List Char), (∀ p ∈ ps, p ≠ [] ∧ ∀ c ∈ p, isAtext c = true) ∧
        (dotAtomTextLoop fuel s).1 = dotTail ps := by
  intro fuel
  induction fuel with
  | zero => intro s; exact ⟨[], by simp, rfl⟩
  | succ f ih =>
    intro s
    cases s with
    | nil => exact ⟨[], by simp, rfl⟩
    | cons c r =>
      by_cases hc : c = '.'
      · by_cases ht : (r.takeWhile isAtext).isEmpty = true
        · refine ⟨[], by simp, ?_⟩
          rw [dotAtomTextLoop, if_pos hc, if_pos ht]
          rfl
        · obtain ⟨ps2, hps2, hflat2⟩ := ih (r.dropWhile isAtext)
          refine ⟨r.takeWhile isAtext :: ps2, ?_, ?_⟩
          · intro p hp
            rcases List.mem_cons.mp hp with rfl | hp
            · exact ⟨by simpa [List.isEmpty_iff] using ht,
                fun c2 hc2 => mem_takeWhile_pred isAtext r c2 hc2⟩
            · exact hps2 p hp
          · rw [dotAtomTextLoop, if_pos hc, if_neg ht]
            simp only [dotTail, hflat2]
      · exact ⟨[], by simp, by rw [dotAtomTextLoop, if_neg hc]; rfl⟩

theorem dotAtomText_sound {fuel : Nat} {s out r : List Char}
    (h : dotAtomText fuel s = some (out, r)) :
    ∃ ps : List (List Char), PartsOk ps ∧ out = dotFlat ps := by
  rw [dotAtomText] at h
  by_cases ht : (s.takeWhile isAtext).isEmpty = true
  · rw [if_pos ht] at h; cases h
  · rw [if_neg ht] at h
    obtain ⟨h1, h2⟩ := Prod.mk.injEq _ _ _ _ ▸ Option.some.inj h
    obtain ⟨ps2, hps2, hflat2⟩ := dotAtomTextLoop_sound fuel (s.dropWhile isAtext)
    refine ⟨s.takeWhile isAtext :: ps2, ⟨by simp, ?_⟩, ?_⟩
    · intro p hp
      rcases List.mem_cons.mp hp with rfl | hp
      · exact ⟨by simpa [List.isEmpty_iff] using ht,
          fun c2 hc2 => mem_takeWhile_pred isAtext s c2 hc2⟩
      · exact hps2 p hp
    · rw [← h1, hflat2]
      simp [dotFlat]

theorem dotAtom_sound {fuel : Nat} {s out r : List Char}
    (h : dotAtom fuel s = some (out, r)) :
    ∃ ps : List (List Char), PartsOk ps ∧ out = dotFlat ps := by
  cases hdt : dotAtomText fuel (optCfws fuel s) with
  | none => rw [dotAtom, hdt] at h; cases h
  | some p =>
    obtain ⟨o, r2⟩ := p
    simp only [dotAtom, hdt] at h
    obtain ⟨h1, h2⟩ := Prod.mk.injEq _ _ _ _ ▸ Option.some.inj h
    obtain ⟨ps2, hps2, hflat2⟩ := dotAtomText_sound hdt
    exact ⟨ps2, hps2, by rw [← h1, ← hflat2]⟩

theorem atomP_sound {fuel : Nat} {s out r : List Char}
    (h : atomP fuel s = some (out, r)) :
    out ≠ [] ∧ ∀ c ∈ out, isAtext c = true := by
  rw [atomP] at h
  by_cases ht : ((optCfws fuel s).takeWhile isAtext).isEmpty = true
  · rw [if_pos ht] at h; cases h
  · rw [if_neg ht] at h
    obtain ⟨h1, h2⟩ := Prod.mk.injEq _ _ _ _ ▸ Option.some.inj h
    refine ⟨by rw [← h1]; simpa [List.isEmpty_iff] using ht, ?_⟩
    intro c hc
    rw [← h1] at hc
    exact mem_takeWhile_pred isAtext _ c hc

theorem atomDotLoop_sound :
    ∀ (fuel : Nat) (s : List Char),
      ∃ ps : List (List Char), (∀ p ∈ ps, p ≠ [] ∧ ∀ c ∈ p, isAtext c = true) ∧
        (atomDotLoop fuel s).1 = dotTail ps := by
  intro fuel
  induction fuel with
  | zero => intro s; exact ⟨[], by simp, rfl⟩
  | succ f ih =>
    intro s
    cases s with
    | nil => exact ⟨[], by simp, rfl⟩
    | cons c r =>
      by_cases hc : c = '.'
      · cases ha : atomP f r with
        | none =>
          refine ⟨[], by simp, ?_⟩
          rw [atomDotLoop, if_pos hc]
          simp [ha, dotTail]
        | some ar =>
          obtain ⟨a1, r1⟩ := ar
          obtain ⟨hane, haok⟩ := atomP_sound ha
          obtain ⟨ps2, hps2, hflat2⟩ := ih r1
          refine ⟨a1 :: ps2, ?_, ?_⟩
          · intro p hp
            rcases List.mem_cons.mp hp with rfl | hp
            · exact ⟨hane, haok⟩
            · exact hps2 p hp
          · rw [atomDotLoop, if_pos hc]
            simp only [ha]
            simp [dotTail, hflat2]
      · exact ⟨[], by simp, by rw [atomDotLoop, if_neg hc]; rfl⟩

theorem obsDomain_sound {fuel : Nat} {s out r : List Char}
    (h : obsDomain fuel s = some (out, r)) :
    ∃ ps : List (List Char), PartsOk ps ∧ out = dotFlat ps := by
  cases ha : atomP fuel s with
  | none => rw [obsDomain, ha] at h; cases h
  | some ar =>
    obtain ⟨a1, r1⟩ := ar
    simp only [obsDomain, ha] at h
    obtain ⟨hane, haok⟩ := atomP_sound ha
    obtain ⟨ps2, hps2, hflat2⟩ := atomDotLoop_sound fuel r1
    obtain ⟨h1, h2⟩ := Prod.mk.injEq _ _ _ _ ▸ Option.some.inj h
    refine ⟨a1 :: ps2, ⟨by simp, ?_⟩, ?_⟩
    · intro p hp
      rcases List.mem_cons.mp hp with rfl | hp
      · exact ⟨hane, haok⟩
      · exact hps2 p hp
    · rw [← h1, hflat2]
      simp [dotFlat]

theorem atomP_none_of_dotAtom_none {fuel : Nat} {s : List Char}
    (h : dotAtom fuel s = none) : atomP fuel s = none := by
  by_cases ht : ((optCfws fuel s).takeWhile isAtext).isEmpty = true
  · rw [atomP, if_pos ht]
  · exfalso
    rw [dotAtom] at h
    have hdt : dotAtomText fuel (optCfws fuel s) =
        some ((optCfws fuel s).takeWhile isAtext ++
          (dotAtomTextLoop fuel ((optCfws fuel s).dropWhile isAtext)).1,
          (dotAtomTextLoop fuel ((optCfws fuel s).dropWhile isAtext)).2) := by
      rw [dotAtomText, if_neg ht]
    rw [hdt] at h
    cases h

theorem wordP_sound {fuel : Nat} {s out r : List Char}
    (h : wordP fuel s = some (out, r)) :
    ∃ w : WordNF, w.Ok ∧ out = w.chars := by
  cases ha : atomP fuel s with
  | some p =>
    obtain ⟨o, r2⟩ := p
    simp only [wordP, ha] at h
    obtain ⟨h1, h2⟩ := Prod.mk.injEq _ _ _ _ ▸ Option.some.inj h
    obtain ⟨hne, hrun⟩ := atomP_sound ha
    exact ⟨WordNF.atomW o, ⟨hne, hrun⟩, by rw [← h1]; rfl⟩
  | none =>
    simp only [wordP, ha] at h
    obtain ⟨ts, hts, hout⟩ := quotedString_sound h
    exact ⟨WordNF.quotedW ts, hts, by rw [hout]; rfl⟩

theorem wordDotLoop_sound :
    ∀ (fuel : Nat) (s : List Char),
      ∃ ws : List WordNF, (∀ w ∈ ws, w.Ok) ∧
        (wordDotLoop fuel s).1 = wordTailFlat ws := by
  intro fuel
  induction fuel with
  | zero => intro s; exact ⟨[], by simp, rfl⟩
  | succ f ih =>
    intro s
    cases s with
    | nil => exact ⟨[], by simp, rfl⟩
    | cons c r =>
      by_cases hc : c = '.'
      · cases hw : wordP f r with
        | none =>
          refine ⟨[], by simp, ?_⟩
          rw [wordDotLoop, if_pos hc]
          simp [hw, wordTailFlat]
        | some wr =>
          obtain ⟨w1, r1⟩ := wr
          obtain ⟨wnf, hwok, hwchars⟩ := wordP_sound hw
          obtain ⟨ws2, hws2, hflat2⟩ := ih r1
          refine ⟨wnf :: ws2, ?_, ?_⟩
          · intro x hx
            rcases List.mem_cons.mp hx with rfl | hx
            · exact hwok
            · exact hws2 x hx
          · rw [wordDotLoop, if_pos hc]
            simp only [hw]
            simp [wordTailFlat, hflat2, hwchars]
      · exact ⟨[], by simp, by rw [wordDotLoop, if_neg hc]; rfl⟩

theorem localPart_sound {fuel : Nat} {s out r : List Char}
    (h : localPart fuel s = some (out, r)) :
    ∃ L : LocalNF, L.Ok ∧ out = L.chars := by
  cases hda : dotAtom fuel s with
  | some p =>
    obtain ⟨o, r2⟩ := p
    simp only [localPart, hda] at h
    obtain ⟨h1, h2⟩ := Prod.mk.injEq _ _ _ _ ▸ Option.some.inj h
    obtain ⟨ps, hps, ho⟩ := dotAtom_sound hda
    exact ⟨LocalNF.dotAtomL ps, hps, by rw [← h1, ho]; rfl⟩
  | none =>
    have hatom := atomP_none_of_dotAtom_none hda
    simp only [localPart, hda] at h
    cases hol : obsLocalPart fuel s with
    | some p =>
      obtain ⟨o, r2⟩ := p
      simp only [hol] at h
      cases hwp : wordP fuel s with
      | none => rw [obsLocalPart, hwp] at hol; cases hol
      | some wr =>
        obtain ⟨w1, r1⟩ := wr
        simp only [obsLocalPart, hwp] at hol
        obtain ⟨hol1, hol2⟩ := Prod.mk.injEq _ _ _ _ ▸ Option.some.inj hol
        have hqs : quotedString fuel s = some (w1, r1) := by
          have hwp2 := hwp
          simp only [wordP, hatom] at hwp2
          exact hwp2
        obtain ⟨ts, hts, hw1⟩ := quotedString_sound hqs
        obtain ⟨ws2, hws2, hflat2⟩ := wordDotLoop_sound fuel r1
        obtain ⟨h1, h2⟩ := Prod.mk.injEq _ _ _ _ ▸ Option.some.inj h
        refine ⟨LocalNF.obsL ts ws2, ⟨hts, hws2⟩, ?_⟩
        rw [← h1, ← hol1, hw1, hflat2]
        rfl
    | none =>
      simp only [hol] at h
      obtain ⟨ts, hts, hout⟩ := quotedString_sound h
      refine ⟨LocalNF.obsL ts [], ⟨hts, by simp⟩, ?_⟩
      rw [hout]
      simp [LocalNF.chars, wordTailFlat]

theorem domainPart_sound {fuel : Nat} {s out r : List Char}
    (h : domainPart fuel s = some (out, r)) :
    ∃ D : DomNF, D.Ok ∧ out = D.chars := by
  cases hdl : domainLiteral fuel s with
  | some p =>
    obtain ⟨o, r2⟩ := p
    simp only [domainPart, hdl] at h
    obtain ⟨h1, h2⟩ := Prod.mk.injEq _ _ _ _ ▸ Option.some.inj h
    obtain ⟨ts, hok, hlast, ho⟩ := domainLiteral_sound hdl
    exact ⟨DomNF.litD ts, ⟨hok, hlast⟩, by rw [← h1, ho]; rfl⟩
  | none =>
    simp only [domainPart, hdl] at h
    cases hod : obsDomain fuel s with
    | some p =>
      obtain ⟨o, r2⟩ := p
      simp only [hod] at h
      obtain ⟨h1, h2⟩ := Prod.mk.injEq _ _ _ _ ▸ Option.some.inj h
      obtain ⟨ps, hps, ho⟩ := obsDomain_sound hod
      exact ⟨DomNF.dotAtomD ps, hps, by rw [← h1, ho]; rfl⟩
    | none =>
      simp only [hod] at h
      obtain ⟨ps, hps, ho⟩ := dotAtom_sound h
      exact ⟨DomNF.dotAtomD ps, hps, by rw [ho]; rfl⟩

theorem addrSpecInternal_sound {fuel : Nat} {s out r : List Char}
    (h : addrSpecInternal fuel s = some (out, r)) :
    ∃ (L : LocalNF) (D : DomNF), L.Ok ∧ D.Ok ∧
      out = L.chars ++ '@' :: D.chars := by
  cases hlp : localPart fuel (optCfws fuel s) with
  | none => rw [addrSpecInternal, hlp] at h; cases h
  | some lr =>
    obtain ⟨l1, r1⟩ := lr
    simp only [addrSpecInternal, hlp] at h
    cases r1 with
    | nil => exact Option.noConfusion h
    | cons c r2 =>
      have h3 : (if c = '@' then
          (match domainPart fuel r2 with
            | some dr => some (l1 ++ '@' :: dr.1, optCfws fuel dr.2)
            | none => none)
        else none) = some (out, r) := h
      by_cases hc : c = '@'
      · rw [if_pos hc] at h3
        cases hdp : domainPart fuel r2 with
        | none => rw [hdp] at h3; cases h3
        | some dr =>
          obtain ⟨d1, r3⟩ := dr
          simp only [hdp] at h3
          obtain ⟨h1, h2⟩ := Prod.mk.injEq _ _ _ _ ▸ Option.some.inj h3
          obtain ⟨L, hL, hl1⟩ := localPart_sound hlp
          obtain ⟨D, hD, hd1⟩ := domainPart_sound hdp
          exact ⟨L, D, hL, hD, by rw [← h1, hl1, hd1]⟩
      · rw [if_neg hc] at h3
        cases h3

theorem addrSpecEnd_sound {fuel : Nat} {s out : List Char}
    (h : addrSpecEnd fuel s = some out) :
    ∃ (L : LocalNF) (D : DomNF), L.Ok ∧ D.Ok ∧
      out = L.chars ++ '@' :: D.chars := by
  cases hi : addrSpecInternal fuel s with
  | none => rw [addrSpecEnd, hi] at h; cases h
  | some pr =>
    obtain ⟨o, r⟩ := pr
    simp only [addrSpecEnd, hi] at h
    cases r with
    | nil =>
      have h2 : some o = some out := h
      obtain rfl := Option.some.inj h2
      exact addrSpecInternal_sound hi
    | cons a t => exact Option.noConfusion h

theorem addrSpecEnd_of_internal {fuel : Nat} {s out : List Char}
    (h : addrSpecInternal fuel s = some (out, [])) :
    addrSpecEnd fuel s = some out := by
  simp only [addrSpecEnd, h]

/-- A successful parse output is a fixed point of the parser: soundness
(the output is a normalized addr-spec) composed with reflection
(normalized addr-specs re-parse to themselves). -/
theorem parse_fixed {s n : String} (h : parse_email_address s = some n) :
    parse_email_address n = some n := by
  rw [parse_email_address] at h
  cases he : addrSpecEnd (parseFuel s.toList) s.toList with
  | none => rw [he] at h; cases h
  | some out =>
    rw [he] at h
    have hn : String.mk out = n := Option.some.inj h
    obtain ⟨L, D, hL, hD, hout⟩ := addrSpecEnd_sound he
    subst hn
    have hfuel : (L.chars ++ '@' :: D.chars).length ≤ parseFuel out := by
      rw [← hout, parseFuel]
      omega
    have hint := addrSpecInternal_reflect (parseFuel out) L D hL hD hfuel
    rw [← hout] at hint
    show (addrSpecEnd (parseFuel out) out).map (fun l => String.mk l) =
      some (String.mk out)
    rw [addrSpecEnd_of_internal hint]
    rfl

/-! ## FWS normalization over CRLF units, and balanced comments -/

theorem crlfUnits_reflect :
    ∀ (us : List (List Char)) (fuel : Nat) (rest : List Char),
      (∀ u ∈ us, u ≠ [] ∧ ∀ c ∈ u, isWsp c = true) →
      (∀ c, rest.head? = some c → isWsp c = false ∧ c ≠ '\r') →
      us.length ≤ fuel →
      crlfUnits fuel (crlfFws us ++ rest) =
        (List.replicate us.length ' ', rest) := by
  intro us
  induction us with
  | nil =>
    intro fuel rest _ hrest _
    exact crlfUnits_nil fuel rest (fun hh => (hrest '\r' hh).2 rfl)
  | cons u us' ih =>
    intro fuel rest hus hrest hfuel
    cases fuel with
    | zero => simp at hfuel
    | succ f =>
      have hstop : ∀ c, (crlfFws us' ++ rest).head? = some c →
          isWsp c = false := by
        intro c hc
        cases us' with
        | nil => exact (hrest c hc).1
        | cons v vs =>
          simp only [crlfFws, List.cons_append, List.head?_cons,
            Option.some_inj] at hc
          rw [← hc]
          decide
      have hwr : wspRun (u ++ (crlfFws us' ++ rest)) =
          (u, crlfFws us' ++ rest) :=
        wspRun_append u _ (hus u (by simp)).2 hstop
      have hne : ¬(u.isEmpty = true) := by
        simp [List.isEmpty_iff, (hus u (by simp)).1]
      have hrec := ih f rest (fun x hx => hus x (by simp [hx])) hrest
        (by simp at hfuel ⊢; omega)
      simp only [crlfFws, List.cons_append, List.append_assoc]
      rw [crlfUnits, if_pos ⟨rfl, rfl⟩]
      simp only [hwr]
      rw [if_neg hne]
      simp only [hrec, List.length_cons, List.replicate_succ]

theorem fwsLoose_crlf (fuel : Nat) (w0 : List Char) (us : List (List Char))
    (rest : List Char)
    (hw0 : ∀ c ∈ w0, isWsp c = true)
    (hus : ∀ u ∈ us, u ≠ [] ∧ ∀ c ∈ u, isWsp c = true)
    (hrest : ∀ c, rest.head? = some c → isWsp c = false ∧ c ≠ '\r')
    (hfuel : us.length ≤ fuel) :
    fwsLoose fuel (w0 ++ crlfFws us ++ rest) =
      (w0 ++ List.replicate us.length ' ', rest) := by
  have hstop : ∀ c, (crlfFws us ++ rest).head? = some c →
      isWsp c = false := by
    intro c hc
    cases us with
    | nil => exact (hrest c hc).1
    | cons v vs =>
      simp only [crlfFws, List.cons_append, List.head?_cons,
        Option.some_inj] at hc
      rw [← hc]
      decide
  have hwr : wspRun (w0 ++ (crlfFws us ++ rest)) = (w0, crlfFws us ++ rest) :=
    wspRun_append w0 _ hw0 hstop
  have hcr := crlfUnits_reflect us fuel rest hus hrest hfuel
  have hwr2 : wspRun rest = ([], rest) := by
    have := takeWhile_append_of isWsp [] rest (by intro c hc; cases hc)
      (fun c hc => (hrest c hc).1)
    simpa [wspRun] using this
  rw [List.append_assoc]
  simp [fwsLoose, hwr, hcr, hwr2]

theorem commentFn_balanced :
    ∀ (n fuel : Nat) (rest : List Char), 2 * n + 1 ≤ fuel →
      commentFn fuel false (balancedParens n ++ ')' :: rest) = some rest := by
  intro n
  induction n with
  | zero =>
    intro fuel rest hf
    cases fuel with
    | zero => omega
    | succ f => rfl
  | succ n ih =>
    intro fuel rest hf
    cases fuel with
    | zero => omega
    | succ f =>
      have hshape : balancedParens (n+1) ++ ')' :: rest =
          '(' :: (balancedParens n ++ ')' :: ')' :: rest) := by
        show (List.replicate (n+1) '(' ++ List.replicate (n+1) ')') ++
            ')' :: rest =
          '(' :: ((List.replicate n '(' ++ List.replicate n ')') ++
            ')' :: ')' :: rest)
        rw [List.replicate_succ, List.replicate_succ']
        simp [List.append_assoc]
      rw [hshape]
      have hnest : commentFn f true
          ('(' :: (balancedParens n ++ ')' :: ')' :: rest)) =
          some (')' :: rest) := by
        cases f with
        | zero => omega
        | succ f2 =>
          show commentFn f2 false (balancedParens n ++ ')' :: ')' :: rest) =
            some (')' :: rest)
          exact ih f2 (')' :: rest) (by omega)
      have hdone : commentFn f false (')' :: rest) = some rest := by
        cases f with
        | zero => omega
        | succ f2 => rfl
      show (match commentFn f true
          ('(' :: (balancedParens n ++ ')' :: ')' :: rest)) with
        | some r1 => commentFn f false r1
        | none => none) = some rest
      rw [hnest]
      exact hdone

theorem comment_balanced (n fuel : Nat) (rest : List Char)
    (h : 2 * n + 2 ≤ fuel) :
    comment fuel ('(' :: (balancedParens n ++ ')' :: rest)) = some rest := by
  cases fuel with
  | zero => omega
  | succ f =>
    show commentFn f false (balancedParens n ++ ')' :: rest) = some rest
    exact commentFn_balanced n f rest (by omega)

theorem cfwsUnit_none (fuel : Nat) (s : List Char) (h : cfwsFree s) :
    cfwsUnit fuel s = none := by
  have hf : fwsFree s := cfwsFree_fwsFree h
  have hofw : optFws fuel s = s := optFws_id fuel s hf
  have hcom : comment fuel s = none := by
    refine comment_none fuel s ?_
    intro hhead
    exact (h '(' hhead).2.2 rfl
  simp [cfwsUnit, hofw, hcom]

theorem cfwsLoop_id (fuel : Nat) (s : List Char) (h : cfwsFree s) :
    cfwsLoop fuel s = s := by
  cases fuel with
  | zero => rfl
  | succ f => simp [cfwsLoop, cfwsUnit_none f s h]

theorem cfws_comment (n fuel : Nat) (rest : List Char)
    (hrest : cfwsFree rest) (hfuel : 2 * n + 2 ≤ fuel) :
    cfws fuel ('(' :: (balancedParens n ++ ')' :: rest)) = some rest := by
  have hs : fwsFree ('(' :: (balancedParens n ++ ')' :: rest)) := by
    intro c hc
    cases hc
    exact ⟨by decide, by decide⟩
  have hunit : cfwsUnit fuel ('(' :: (balancedParens n ++ ')' :: rest)) =
      some rest := by
    simp only [cfwsUnit, optFws_id fuel _ hs,
      comment_balanced n fuel rest hfuel,
      optFws_id fuel rest (cfwsFree_fwsFree hrest)]
  simp [cfws, hunit, cfwsLoop_id fuel rest hrest,
    optFws_id fuel rest (cfwsFree_fwsFree hrest), Option.orElse]

theorem optCfws_comment (n fuel : Nat) (rest : List Char)
    (hrest : cfwsFree rest) (hfuel : 2 * n + 2 ≤ fuel) :
    optCfws fuel ('(' :: (balancedParens n ++ ')' :: rest)) = rest := by
  simp [optCfws, cfws_comment n fuel rest hrest hfuel]

/-! ## Theorems about the claims -/

/-- Claim C3: parsing is idempotent — whenever `parse_email_address s`
succeeds with normalized output `n`, re-parsing `n` succeeds and returns
exactly `n`. -/
theorem claim_C3_idempotent :
    ∀ s n : String, parse_email_address s = some n →
      parse_email_address n = some n :=
  fun _ _ h => parse_fixed h

theorem claim_C3_witness :
    parse_email_address " user@example.com " = some "user@example.com" ∧
    parse_email_address "user@example.com" = some "user@example.com" :=
  ⟨by decide,
   claim_C3_idempotent " user@example.com " "user@example.com" (by decide)⟩

/-- Claim C1: every instance of the Email Address value type carries a
string produced by the grammar engine's parse operation, and that string
is accepted verbatim by the engine — it is syntactically valid per the
engine's addr-spec grammar; moreover such instances exist. -/
theorem claim_C1_validated_instances :
    (∀ e : EmailAddress, parse_email_address e.addr = some e.addr) ∧
    ∃ e : EmailAddress, e.addr = "user@example.com" := by
  constructor
  · intro e
    obtain ⟨input, hin⟩ := e.validated
    exact parse_fixed hin
  · exact ⟨⟨"user@example.com", ⟨"user@example.com", by decide⟩⟩, rfl⟩


/-- Claim C6: the addr-spec parser rejects a dot-atom with a leading dot, a
trailing dot, or two consecutive dots, in the local part as well as in the
domain — an error, with no silent correction. -/
theorem claim_C6_dot_atom_boundaries :
    parse_email_address ".user@example.com" = none ∧
    parse_email_address "user.@example.com" = none ∧
    parse_email_address "user..name@example.com" = none ∧
    parse_email_address "user@.example.com" = none ∧
    parse_email_address "user@example.com." = none ∧
    parse_email_address "user@example..com" = none := by
  refine ⟨?_, ?_, ?_, ?_, ?_, ?_⟩ <;> decide

/-- Claim C7: the empty quoted-string local part and the empty
domain-literal are accepted and preserved verbatim in the normalized
output. -/
theorem claim_C7_emptiness_permitted :
    parse_email_address "\"\"@example.com" = some "\"\"@example.com" ∧
    parse_email_address "user@[]" = some "user@[]" := by
  exact ⟨by decide, by decide⟩

/-- Claim C2, counterexample: the claim says that inside domain-literal
content, whitespace runs containing no CRLF survive character-for-character
in the normalized output; but the FWS that stands immediately before the
closing bracket is dropped by `domain_literal_parser` (its map ignores the
trailing `[FWS]`), so the accepted input `user@[1 ]` normalizes to
`user@[1]`, not to `user@[1 ]`. -/
theorem claim_C2_counterexample :
    parse_email_address "user@[1 ]" = some "user@[1]" ∧
    some "user@[1]" ≠ some "user@[1 ]" := by
  exact ⟨by decide, by decide⟩

/-- Claim C4: the addr-spec parser succeeds only when the entire input is
consumed — whenever `parse_email_address` succeeds, the internal parser
(which itself ends by absorbing any permitted trailing CFWS) reached the
end of the input with nothing left over; trailing garbage makes the parse
fail while trailing white space is accepted. -/
theorem claim_C4_whole_input_consumed :
    (∀ s n, parse_email_address s = some n →
      addrSpecInternal (parseFuel s.toList) s.toList = some (n.toList, [])) ∧
    parse_email_address "user@example.com garbage" = none ∧
    parse_email_address "user@example.com " = some "user@example.com" := by
  refine ⟨?_, by decide, by decide⟩
  intro s n h
  unfold parse_email_address at h
  cases hend : addrSpecEnd (parseFuel s.toList) s.toList with
  | none => rw [hend] at h; exact Option.noConfusion h
  | some out =>
    rw [hend] at h
    have hn : String.mk out = n := Option.some.inj h
    unfold addrSpecEnd at hend
    cases hint : addrSpecInternal (parseFuel s.toList) s.toList with
    | none => rw [hint] at hend; exact Option.noConfusion hend
    | some pr =>
      rw [hint] at hend
      obtain ⟨o, r⟩ := pr
      cases r with
      | nil =>
        have ho : o = out := Option.some.inj hend
        rw [ho, ← hn]
        rfl
      | cons c cs => exact Option.noConfusion hend

/-- Claim C4, witness: the always-consumed fact instantiated at the
accepted input `user@example.com `. -/
theorem claim_C4_witness :
    addrSpecInternal (parseFuel "user@example.com ".toList)
      "user@example.com ".toList = some ("user@example.com".toList, []) :=
  claim_C4_whole_input_consumed.1 "user@example.com " "user@example.com" (by decide)

/-- Claim C8: a folding continuation line (however many spaces or tabs it
starts with) has its trimmed content appended to the open field's value
with exactly one separating space; on the block from the claim this yields
a single To field `a@example.com, b@example.com` plus a Subject field. -/
theorem claim_C8_unfolding :
    (∀ rest acc f line, startsWsp line = true → (trimList line).isEmpty = false →
      headerLoop (line :: rest) acc (some f) =
        headerLoop rest acc
          (some ⟨f.name, f.value ++ " " ++ String.mk (trimList line)⟩)) ∧
    parse_email_headers "To: a@example.com,\n\tb@example.com\nSubject: X\n\n" =
      [⟨"To", "a@example.com, b@example.com"⟩, ⟨"Subject", "X"⟩] := by
  refine ⟨?_, by decide⟩
  intro rest acc f line h1 h2
  simp [headerLoop, h1, h2]

/-- Claim C8, witness: the continuation step instantiated at the line
`"\t  b"` (three leading white-space characters) and an open field. -/
theorem claim_C8_witness :
    headerLoop ["\t  b".toList] [] (some ⟨"To", "a,"⟩) =
      headerLoop [] []
        (some ⟨"To", "a," ++ " " ++ String.mk (trimList "\t  b".toList)⟩) :=
  claim_C8_unfolding.1 [] [] ⟨"To", "a,"⟩ "\t  b".toList (by decide) (by decide)

/-- Claim C9: the header unfolder is total by construction (it is a plain
function into a list of fields, with no error outcome), and a header line
without a colon is silently ignored: it contributes no field and the scan
continues with the remaining lines (the open field, if any, is flushed
unchanged). -/
theorem claim_C9_lenient_no_colon :
    ∀ line rest acc cur, (trimList line).isEmpty = false →
      startsWsp line = false → splitColon line = none →
      headerLoop (line :: rest) acc cur = headerLoop rest (acc ++ cur.toList) none := by
  intro line rest acc cur h1 h2 h3
  simp [headerLoop, h1, h2, h3]

/-- Claim C9, witness: a colon-less line between two well-formed fields
produces no field and no error. -/
theorem claim_C9_witness :
    headerLoop ["badline".toList, "B: 2".toList] [] (some ⟨"A", "1"⟩) =
      headerLoop ["B: 2".toList] ([] ++ (some (⟨"A", "1"⟩ : HeaderField)).toList) none :=
  claim_C9_lenient_no_colon "badline".toList ["B: 2".toList] [] (some ⟨"A", "1"⟩)
    (by decide) (by decide) (by decide)

/-- Claim C10: a malformed (colon-less) line closes the previously open
field — the open field is flushed unchanged, and a continuation line that
follows the malformed line is discarded rather than appended to that
field. -/
theorem claim_C10_malformed_closes_field :
    (∀ bad cont rest acc f,
      (trimList bad).isEmpty = false → startsWsp bad = false →
      splitColon bad = none →
      (trimList cont).isEmpty = false → startsWsp cont = true →
      headerLoop (bad :: cont :: rest) acc (some f) =
        headerLoop rest (acc ++ [f]) none) ∧
    parse_email_headers "A: 1\nbadline\n cont\nB: 2\n\n" =
      [⟨"A", "1"⟩, ⟨"B", "2"⟩] := by
  refine ⟨?_, by decide⟩
  intro bad cont rest acc f h1 h2 h3 h4 h5
  simp [headerLoop, h1, h2, h3, h4, h5]

/-- Claim C10, witness: the step fact at the concrete lines `badline` and
` cont`, with the field `A: 1` open. -/
theorem claim_C10_witness :
    headerLoop ["badline".toList, " cont".toList] [] (some ⟨"A", "1"⟩) =
      headerLoop [] ([] ++ [⟨"A", "1"⟩]) none :=
  claim_C10_malformed_closes_field.1 "badline".toList " cont".toList [] []
    ⟨"A", "1"⟩ (by decide) (by decide) (by decide) (by decide) (by decide)


/-- Claim C2, amended: inside quoted-string content the engine's FWS
normalizer collapses each CRLF-plus-whitespace unit to exactly one space
and preserves whitespace runs containing no CRLF character-for-character
(stated in general over `fws_as_space`, the normalizer used for
quoted-string and domain-literal interior whitespace, and shown on the
claim's two concrete examples); the claim's universal preservation does
NOT extend to the very end of a domain-literal: FWS standing immediately
before the closing `]` is dropped from the output entirely (final
conjunct), which is the corrected behaviour. -/
theorem claim_C2_amended :
    parse_email_address "\"user\r\n name\"@example.com" =
      some "\"user name\"@example.com" ∧
    parse_email_address "\"user\r\nname\"@example.com" = none ∧
    (∀ (fuel : Nat) (w0 : List Char) (us : List (List Char))
        (rest : List Char),
      (∀ c ∈ w0, isWsp c = true) →
      (∀ u ∈ us, u ≠ [] ∧ ∀ c ∈ u, isWsp c = true) →
      (∀ c, rest.head? = some c → isWsp c = false ∧ c ≠ '\r') →
      us.length ≤ fuel →
      fwsAsSpace fuel (w0 ++ crlfFws us ++ rest) =
        some (w0 ++ List.replicate us.length ' ', rest)) ∧
    parse_email_address "\"user \"@example.com" =
      some "\"user \"@example.com" ∧
    parse_email_address "user@[1 ]" = some "user@[1]" := by
  refine ⟨by decide, by decide, ?_, by decide, by decide⟩
  intro fuel w0 us rest hw0 hus hrest hfuel
  rw [fwsAsSpace_eq, fwsLoose_crlf fuel w0 us rest hw0 hus hrest hfuel]

/-- Claim C2, amended, witness: the FWS normalization instantiated at a
space, one CRLF-plus-tab unit and a stopping character. -/
theorem claim_C2_amended_witness :
    fwsAsSpace 1 ([' '] ++ crlfFws [['\t']] ++ ['x']) =
      some ([' '] ++ List.replicate 1 ' ', ['x']) :=
  claim_C2_amended.2.2.1 1 [' '] [['\t']] ['x'] (by decide) (by decide)
    (by intro c hc; cases hc; exact ⟨by decide, by decide⟩) (by decide)

/-- Claim C5: comments never reach the normalized output at any nesting
depth — for every `n`, `user` followed by a parenthesis comment whose body
is `n` further nested empty comments parses to plain `user@example.com` —
and CFWS around the whole address is removed, as on the claim's two
concrete examples. -/
theorem claim_C5_comments_removed :
    (∀ n : Nat,
      parse_email_address (String.mk (['u','s','e','r'] ++ '(' ::
        (balancedParens n ++ ')' :: '@' :: "example.com".toList))) =
        some "user@example.com") ∧
    parse_email_address "user(a(b(c)d)e)@example.com" =
      some "user@example.com" ∧
    parse_email_address " user@example.com " = some "user@example.com" := by
  refine ⟨?_, by decide, by decide⟩
  intro n
  have main : ∀ fuel : Nat, 2 * n + 13 ≤ fuel →
      addrSpecEnd fuel (['u','s','e','r'] ++ '(' ::
        (balancedParens n ++ ')' :: '@' :: "example.com".toList)) =
      some (['u','s','e','r'] ++ '@' ::
        (DomNF.dotAtomD [['e','x','a','m','p','l','e'],
          ['c','o','m']]).chars) := by
    intro fuel hf
    have hca : cfwsFree ('@' :: "example.com".toList) :=
      cfwsFree_cons _ _ (by decide) (by decide) (by decide)
    have hcfin : cfwsFree (['u','s','e','r'] ++ '(' ::
        (balancedParens n ++ ')' :: '@' :: "example.com".toList)) :=
      cfwsFree_cons 'u' _ (by decide) (by decide) (by decide)
    have hstop1 : ∀ c, ('(' :: (balancedParens n ++ ')' :: '@' ::
        "example.com".toList)).head? = some c →
        isAtext c = false ∧ c ≠ '.' := by
      intro c hc
      cases hc
      exact ⟨by decide, by decide⟩
    have hdt := dotAtomText_reflect fuel [['u','s','e','r']]
      ('(' :: (balancedParens n ++ ')' :: '@' :: "example.com".toList))
      ⟨by simp, by decide⟩ hstop1
      (by simp only [List.length_cons, List.length_nil]; omega)
    have hdfl : dotFlat [['u','s','e','r']] = ['u','s','e','r'] := by decide
    rw [hdfl] at hdt
    have hda : dotAtom fuel (['u','s','e','r'] ++ '(' ::
        (balancedParens n ++ ')' :: '@' :: "example.com".toList)) =
        some (['u','s','e','r'], '@' :: "example.com".toList) := by
      simp only [dotAtom, optCfws_id fuel _ hcfin, hdt,
        optCfws_comment n fuel ('@' :: "example.com".toList) hca (by omega)]
    have hlp : localPart fuel (['u','s','e','r'] ++ '(' ::
        (balancedParens n ++ ')' :: '@' :: "example.com".toList)) =
        some (['u','s','e','r'], '@' :: "example.com".toList) := by
      simp only [localPart, hda]
    have hdlen : (DomNF.dotAtomD [['e','x','a','m','p','l','e'],
        ['c','o','m']]).chars.length = 11 := by decide
    have hdp := domainPart_reflect fuel
      (DomNF.dotAtomD [['e','x','a','m','p','l','e'], ['c','o','m']]) []
      ⟨by simp, by decide⟩ cfwsFree_nil (fun c hc => Option.noConfusion hc)
      (by rw [hdlen]; omega)
    have hchars : (DomNF.dotAtomD [['e','x','a','m','p','l','e'],
        ['c','o','m']]).chars ++ ([] : List Char) =
        "example.com".toList := by decide
    rw [hchars] at hdp
    have hint : addrSpecInternal fuel (['u','s','e','r'] ++ '(' ::
        (balancedParens n ++ ')' :: '@' :: "example.com".toList)) =
        some (['u','s','e','r'] ++ '@' ::
          (DomNF.dotAtomD [['e','x','a','m','p','l','e'],
            ['c','o','m']]).chars, []) := by
      simp only [addrSpecInternal, optCfws_id fuel _ hcfin, hlp,
        eq_self_iff_true, if_true, hdp, optCfws_id fuel [] cfwsFree_nil]
    exact addrSpecEnd_of_internal hint
  have hlen : 2 * n + 13 ≤ parseFuel (['u','s','e','r'] ++ '(' ::
      (balancedParens n ++ ')' :: '@' :: "example.com".toList)) := by
    have h11 : ("example.com".toList).length = 11 := by decide
    show 2 * n + 13 ≤ 2 * (['u','s','e','r'] ++ '(' ::
      (balancedParens n ++ ')' :: '@' :: "example.com".toList)).length + 4
    simp only [balancedParens, List.length_append, List.length_cons,
      List.length_replicate, h11]
    omega
  show (addrSpecEnd (parseFuel (['u','s','e','r'] ++ '(' ::
      (balancedParens n ++ ')' :: '@' :: "example.com".toList)))
      (['u','s','e','r'] ++ '(' ::
      (balancedParens n ++ ')' :: '@' :: "example.com".toList))).map
      (fun l => String.mk l) = some "user@example.com"
  rw [main _ hlen]
  decide


end Sendmail
